import Mathlib

/-!
# KdTree: a shallow embedding of `src/kdtree.cpp`

The development models the two recursive algorithms of the program, the builder
`kdtreeRecursiveBuild` and the traversal `knnSearch`, together with the bounded
accumulator `ResultSet`.

Modelling conventions.

* `double` coordinates are elements of an arbitrary linearly ordered commutative ring `K`
  (exact arithmetic; rounding, NaN and overflow of floating point are outside the model).
  Concrete evaluations use `K = ℤ`.
* A Euclidean distance is the non-negative real `sqrt s`; the type `Dist K` stores the
  radicand `s`.  `sqrt` is strictly monotone on non-negative numbers, so the order of
  `Dist K` compares radicands.  `std::abs a` is stored as `sqrt (a * a)`.
  Positive infinity is the top element of `WithTop`.
* `int` parameters are `Int`; the comparison of a `size_t` with an `int` converts the `int`
  modulo `2 ^ 64` (`sizeT`, for a 64-bit `size_t`).  The remainder `%` on `int` is
  `Int.tmod`.  Point indices are positions in the point vector, so `Nat`; an index outside
  the vector reads the point `(0, 0)`.
* `Node*` is the inductive type `Node`: `Node.null` is `nullptr`, `Node.mk` an allocated node.
* `std::priority_queue<Neighbor>` is a list kept in non-increasing order of distance:
  `top` is the head, `pop` drops the head, `emplace` inserts in order.
* `std::unordered_set<int>` is a list used as a set.
* `std::sort` is insertion sort on the same comparator; it keeps the order of elements
  that the comparator does not separate.
* `knnSearch` and `addPoint` update the accumulator in place; here the accumulator is
  passed in and returned.  `printResults` returns the lines it prints.
* In `printResults` the reference `result` is bound to `temp.top()` and read after
  `temp.pop()`.  The queue keeps its elements in a vector whose first slot is the top, so
  the reference then denotes the top of the popped queue (`resultAfterPop`).
-/

namespace KdTree

/-- Conversion of an `int` to `size_t`, as performed when an `int` is compared with `size()`. -/
def sizeT (n : Int) : Nat := (n % 2 ^ 64).toNat

/-- The C++ `struct Point`. -/
structure Point (K : Type) where
  x : K
  y : K
deriving DecidableEq, Repr

instance {K : Type} [Zero K] : Inhabited (Point K) := ⟨⟨0, 0⟩⟩

/-- The C++ `class Node`, seen through a `Node*`: `null` is `nullptr`. -/
inductive Node (K : Type) where
  | null : Node K
  | mk (axis : Int) (value : K) (left right : Node K) (point_indices : List Nat) : Node K
deriving DecidableEq, Repr

/-- The C++ `struct Neighbor`. -/
structure Neighbor (D : Type) where
  distance : D
  index : Nat
deriving DecidableEq, Repr

/-- The C++ `Neighbor::operator<`: comparison by distance only. -/
def Neighbor.less {D : Type} [LT D] (a other : Neighbor D) : Prop :=
  a.distance < other.distance

instance {D : Type} [LinearOrder D] (a b : Neighbor D) : Decidable (a.less b) :=
  inferInstanceAs (Decidable (a.distance < b.distance))

/-- The order in which the max-heap lists its elements: `a` may stand before `b`
when `a` is not less than `b`. -/
def Neighbor.notLess {D : Type} [LT D] (a b : Neighbor D) : Prop := ¬ a.less b

instance {D : Type} [LinearOrder D] : DecidableRel (@Neighbor.notLess D _) :=
  fun a b => inferInstanceAs (Decidable (¬ a.less b))

instance {D : Type} [LinearOrder D] : IsTotal (Neighbor D) Neighbor.notLess :=
  ⟨fun a b => by
    simp only [Neighbor.notLess, Neighbor.less, not_lt]
    exact le_total _ _⟩

instance {D : Type} [LinearOrder D] : IsTrans (Neighbor D) Neighbor.notLess :=
  ⟨fun a b c hab hbc => by
    simp only [Neighbor.notLess, Neighbor.less, not_lt] at *
    exact le_trans hbc hab⟩

/-- The C++ `priority_queue::emplace` on a queue listed from the top down. -/
def pqEmplace {D : Type} [LinearOrder D] (n : Neighbor D) (q : List (Neighbor D)) :
    List (Neighbor D) :=
  q.orderedInsert Neighbor.notLess n

/-- The C++ `class ResultSet`. -/
structure ResultSet (D : Type) where
  k : Int
  result_set : List (Neighbor D)
  visited_points : List Nat
deriving DecidableEq, Repr

/-- The constructor `ResultSet(int k)`. -/
def ResultSet.fresh {D : Type} (k : Int) : ResultSet D :=
  { k := k, result_set := [], visited_points := [] }

/-- The C++ `ResultSet::addPoint`. -/
def ResultSet.addPoint {D : Type} [LinearOrder D] (rs : ResultSet D) (distance : D)
    (index : Nat) : ResultSet D :=
  if index ∈ rs.visited_points then rs
  else
    let visited := index :: rs.visited_points
    if rs.result_set.length ≤ sizeT rs.k then
      { rs with result_set := pqEmplace ⟨distance, index⟩ rs.result_set,
                visited_points := visited }
    else
      match rs.result_set with
      | [] => { rs with visited_points := visited }
      | top :: rest =>
        if distance < top.distance then
          { rs with result_set := pqEmplace ⟨distance, index⟩ rest,
                    visited_points := visited }
        else { rs with visited_points := visited }

/-- The C++ `ResultSet::worstDist`. -/
def ResultSet.worstDist {D : Type} (rs : ResultSet D) : WithTop D :=
  match rs.result_set with
  | [] => ⊤
  | top :: _ => (top.distance : WithTop D)

/-- The element that the reference `result` of `printResults` denotes when it is read.
The statement `const Neighbor& result = temp.top();` binds it to the first slot of the
queue's vector and `temp.pop();` runs before any read.  After the pop that slot holds the
top of the remaining queue `temp`; when nothing remains, the slot is no longer part of the
vector and still holds the element `popped` that was just removed. -/
def resultAfterPop {D : Type} (popped : Neighbor D) (temp : List (Neighbor D)) : Neighbor D :=
  match temp with
  | [] => popped
  | next :: _ => next

/-- The `while` loop of `ResultSet::printResults`: the first argument is the copied heap
before `temp.pop()`, `temp` the heap after it, `printed` the set `printed_indices`; the
value is the sequence of printed lines.  Every iteration pops one element and reads
`result` after the pop. -/
def printLoop {K D : Type} [Zero K] (points : List (Point K)) :
    List (Neighbor D) → List Nat → List (Point K × D)
  | [], _ => []
  | popped :: temp, printed =>
    if (resultAfterPop popped temp).index ∈ printed then printLoop points temp printed
    else (points.getD (resultAfterPop popped temp).index default,
        (resultAfterPop popped temp).distance) ::
      printLoop points temp ((resultAfterPop popped temp).index :: printed)

/-- The C++ `ResultSet::printResults`, returning the printed lines in order. -/
def ResultSet.printResults {K D : Type} [Zero K] (rs : ResultSet D) (points : List (Point K)) :
    List (Point K × D) :=
  printLoop points rs.result_set []

/-- A sequence of `addPoint` calls, applied from left to right. -/
def ResultSet.addPoints {D : Type} [LinearOrder D] (rs : ResultSet D)
    (calls : List (D × Nat)) : ResultSet D :=
  calls.foldl (fun acc c => acc.addPoint c.1 c.2) rs

/-- A distance `sqrt sq`, stored by its radicand. -/
structure Dist (K : Type) where
  sq : K
deriving DecidableEq, Repr

instance {K : Type} [LinearOrder K] : LinearOrder (Dist K) :=
  LinearOrder.lift' Dist.sq (fun a b h => by cases a; cases b; cases h; rfl)

/-- The value `std::sqrt s`. -/
def Dist.sqrt {K : Type} (s : K) : Dist K := ⟨s⟩

/-- The value `std::abs a`, which is `sqrt (a * a)`. -/
def Dist.abs {K : Type} [Mul K] (a : K) : Dist K := ⟨a * a⟩

/-- The C++ `calculateDistance`. -/
def calculateDistance {K : Type} [LinearOrderedCommRing K] (a b : Point K) : Dist K :=
  Dist.sqrt ((a.x - b.x) ^ 2 + (a.y - b.y) ^ 2)

/-- The coordinate `axis == 0 ? points[i].x : points[i].y`. -/
def coord {K : Type} [Zero K] (points : List (Point K)) (axis : Int) (i : Nat) : K :=
  if axis = 0 then (points.getD i default).x else (points.getD i default).y

/-- The comparator passed to `std::sort` in `kdtreeRecursiveBuild`. -/
def comp {K : Type} [Zero K] [LT K] (points : List (Point K)) (axis : Int) (i j : Nat) : Prop :=
  coord points axis i < coord points axis j

/-- The order that `std::sort` establishes: `i` may stand before `j` when `comp j i` fails. -/
def sortedBefore {K : Type} [Zero K] [LT K] (points : List (Point K)) (axis : Int)
    (i j : Nat) : Prop :=
  ¬ comp points axis j i

instance {K : Type} [Zero K] [LinearOrder K] (points : List (Point K)) (axis : Int) :
    DecidableRel (sortedBefore points axis) :=
  fun i j => inferInstanceAs (Decidable (¬ (coord points axis j < coord points axis i)))

instance {K : Type} [Zero K] [LinearOrder K] (points : List (Point K)) (axis : Int) :
    IsTotal Nat (sortedBefore points axis) :=
  ⟨fun i j => by
    simp only [sortedBefore, comp, not_lt]
    exact le_total _ _⟩

instance {K : Type} [Zero K] [LinearOrder K] (points : List (Point K)) (axis : Int) :
    IsTrans Nat (sortedBefore points axis) :=
  ⟨fun i j l hij hjl => by
    simp only [sortedBefore, comp, not_lt] at *
    exact le_trans hij hjl⟩

/-- The sorted copy `sorted_indices` of `point_indices`. -/
def sortIndices {K : Type} [Zero K] [LinearOrder K] (points : List (Point K)) (axis : Int)
    (point_indices : List Nat) : List Nat :=
  point_indices.insertionSort (sortedBefore points axis)

/-- The recursion of `kdtreeRecursiveBuild`, with a bound on the recursion depth.
The bound is only consulted when the index list exceeds the leaf size; a bound of at least
the length of the list is never used up (`buildFuel_eq`), so the value `Node.null` of the
case `0` does not occur in `kdtreeRecursiveBuild`. -/
def buildFuel {K : Type} [Zero K] [LinearOrder K] (points : List (Point K)) (leaf_size : Int) :
    Nat → List Nat → Int → Node K
  | fuel, point_indices, axis =>
    if point_indices.length ≤ sizeT leaf_size then
      Node.mk axis 0 Node.null Node.null point_indices
    else
      match fuel with
      | 0 => Node.null
      | fuel + 1 =>
        let sorted_indices := sortIndices points axis point_indices
        let median_idx := sorted_indices.length / 2
        let median_value := coord points axis (sorted_indices.getD median_idx 0)
        let left := buildFuel points leaf_size fuel (sorted_indices.take median_idx)
          ((axis + 1).tmod 2)
        let right := buildFuel points leaf_size fuel (sorted_indices.drop (median_idx + 1))
          ((axis + 1).tmod 2)
        Node.mk axis median_value left right []

/-- The C++ `kdtreeRecursiveBuild`.  Both recursive calls receive a shorter list, so the
length of the index list bounds the recursion depth.  The two `return` statements are
`kdtreeRecursiveBuild_leaf` and `kdtreeRecursiveBuild_split`. -/
def kdtreeRecursiveBuild {K : Type} [Zero K] [LinearOrder K] (points : List (Point K))
    (point_indices : List Nat) (axis : Int) (leaf_size : Int) : Node K :=
  buildFuel points leaf_size point_indices.length point_indices axis

/-- The `for` loop over a leaf in `knnSearch`. -/
def searchLeaf {K : Type} [LinearOrderedCommRing K] (points : List (Point K)) (query : Point K)
    (point_indices : List Nat) (result_set : ResultSet (Dist K)) : ResultSet (Dist K) :=
  point_indices.foldl
    (fun acc idx => acc.addPoint (calculateDistance (points.getD idx default) query) idx)
    result_set

/-- The C++ `knnSearch`; the accumulator is passed in and returned.  The test
`query_value <= node->value` selects `near_subtree` and `far_subtree`: in its first branch
they are `left` and `right`, in its second `right` and `left`. -/
def knnSearch {K : Type} [LinearOrderedCommRing K] (points : List (Point K)) (query : Point K) :
    Node K → ResultSet (Dist K) → ResultSet (Dist K)
  | Node.null, result_set => result_set
  | Node.mk axis value left right point_indices, result_set =>
    if point_indices ≠ [] then searchLeaf points query point_indices result_set
    else
      let query_value := if axis = 0 then query.x else query.y
      let distance_to_plane := Dist.abs (query_value - value)
      if query_value ≤ value then
        let after_near := knnSearch points query left result_set
        if (distance_to_plane : WithTop (Dist K)) < after_near.worstDist then
          knnSearch points query right after_near
        else after_near
      else
        let after_near := knnSearch points query right result_set
        if (distance_to_plane : WithTop (Dist K)) < after_near.worstDist then
          knnSearch points query left after_near
        else after_near

/-- The point vector of `main`. -/
def demoPoints : List (Point Int) :=
  [⟨2, 3⟩, ⟨5, 4⟩, ⟨9, 6⟩, ⟨4, 7⟩, ⟨8, 1⟩, ⟨7, 2⟩, ⟨6, 3⟩, ⟨1, 9⟩, ⟨3, 8⟩]

/-- The tree built in `main`. -/
def demoTree : Node Int := kdtreeRecursiveBuild demoPoints (List.range 9) 0 1

/-- The accumulator after the search of `main`. -/
def demoResult : ResultSet (Dist Int) :=
  knnSearch demoPoints ⟨6, 4⟩ demoTree (ResultSet.fresh 3)

/-! ## Notions used to state the properties -/

/-- The state invariant of the accumulator: the queue is listed from the worst candidate
down, no index is seen or retained twice, every retained index is seen, and the queue holds
as many candidates as indices were seen, up to `k + 1`. -/
structure ResultSet.Inv {D : Type} [LinearOrder D] (rs : ResultSet D) : Prop where
  sorted : rs.result_set.Sorted Neighbor.notLess
  visited_nodup : rs.visited_points.Nodup
  index_nodup : (rs.result_set.map Neighbor.index).Nodup
  index_visited : ∀ n ∈ rs.result_set, n.index ∈ rs.visited_points
  length_eq : rs.result_set.length = min rs.visited_points.length (sizeT rs.k + 1)

/-- The accumulator `rs` has been offered exactly the candidates `offered` (one per seen
index) and holds the nearest of them: every candidate it does not hold is at least as far
as every candidate it holds. -/
def ResultSet.Tracks {D : Type} [LinearOrder D] (rs : ResultSet D)
    (offered : List (Neighbor D)) : Prop :=
  (offered.map Neighbor.index).Perm rs.visited_points ∧
  ∃ rejected : List (Neighbor D), (rs.result_set ++ rejected).Perm offered ∧
    ∀ x ∈ rejected, ∀ y ∈ rs.result_set, y.distance ≤ x.distance

/-- Whether a `Node*` is `nullptr`. -/
def Node.isNull {K : Type} : Node K → Bool
  | Node.null => true
  | Node.mk _ _ _ _ _ => false

/-- The index lists of the leaves of a tree, from left to right.  A leaf is a node without
children. -/
def Node.leafLists {K : Type} : Node K → List (List Nat)
  | Node.null => []
  | Node.mk _ _ left right point_indices =>
    if left.isNull && right.isNull then [point_indices]
    else left.leafLists ++ right.leafLists

/-- The indices stored in the leaves of a tree. -/
def Node.leafIndices {K : Type} (node : Node K) : List Nat := node.leafLists.flatten

/-- The number of internal nodes of a tree, the nodes that have a child. -/
def Node.internalCount {K : Type} : Node K → Nat
  | Node.null => 0
  | Node.mk _ _ left right _ =>
    if left.isNull && right.isNull then 0
    else 1 + left.internalCount + right.internalCount

/-- The split invariant with a strict right side: at every node, the indices stored below
the left child have a coordinate `<=` the split value and those below the right child a
coordinate `>` the split value. -/
def Node.strictSplit {K : Type} [Zero K] [LinearOrder K] (points : List (Point K)) :
    Node K → Prop
  | Node.null => True
  | Node.mk axis value left right _ =>
    (∀ i ∈ left.leafIndices, coord points axis i ≤ value) ∧
    (∀ i ∈ right.leafIndices, value < coord points axis i) ∧
    left.strictSplit points ∧ right.strictSplit points

/-- The split invariant with a weak right side: at every node, the indices stored below the
left child have a coordinate `<=` the split value and those below the right child a
coordinate `>=` the split value. -/
def Node.weakSplit {K : Type} [Zero K] [LinearOrder K] (points : List (Point K)) :
    Node K → Prop
  | Node.null => True
  | Node.mk axis value left right _ =>
    (∀ i ∈ left.leafIndices, coord points axis i ≤ value) ∧
    (∀ i ∈ right.leafIndices, value ≤ coord points axis i) ∧
    left.weakSplit points ∧ right.weakSplit points

/-- The full scan: the distances from the query to all points, sorted ascending. -/
def bruteForce {K : Type} [LinearOrderedCommRing K] (points : List (Point K))
    (query : Point K) : List (Dist K) :=
  (points.map (fun p => calculateDistance p query)).insertionSort (· ≤ ·)

/-- Three points that share their `x` coordinate. -/
def tiePoints : List (Point Int) := [⟨1, 0⟩, ⟨1, 1⟩, ⟨1, 2⟩]

/-- Six points with pairwise distinct `x` and pairwise distinct `y` coordinates. -/
def prunePoints : List (Point Int) := [⟨4, 5⟩, ⟨6, 0⟩, ⟨1, 3⟩, ⟨0, 1⟩, ⟨5, 4⟩, ⟨2, 2⟩]

/-- The tree over `prunePoints` with leaf size 1. -/
def pruneTree : Node Int := kdtreeRecursiveBuild prunePoints (List.range 6) 0 1

/-- The accumulator after the search for the query `(3, 6)` with `k = 2` in `pruneTree`. -/
def pruneResult : ResultSet (Dist Int) :=
  knnSearch prunePoints ⟨3, 6⟩ pruneTree (ResultSet.fresh 2)

/-- The shape of the trees of the builder with leaf size `cap`: every node is a leaf, without
children and with at most `cap` indices, or an internal node, with two children and no
index of its own. -/
def Node.shaped {K : Type} (cap : Nat) : Node K → Prop
  | Node.null => True
  | Node.mk _ _ left right point_indices =>
    (left.isNull = true ∧ right.isNull = true ∧ point_indices.length ≤ cap) ∨
    (left.isNull = false ∧ right.isNull = false ∧ point_indices = [] ∧
      left.shaped cap ∧ right.shaped cap)

/-- The height of a tree: a leaf has height 0, an internal node one more than the larger
height of its children. -/
def Node.height {K : Type} : Node K → Nat
  | Node.null => 0
  | Node.mk _ _ left right _ =>
    if left.isNull && right.isNull then 0
    else 1 + max left.height right.height

/-- The number of indices a subtree was built from: the indices in its leaves and one
dropped index for each of its internal nodes. -/
def Node.inputCount {K : Type} (node : Node K) : Nat :=
  node.leafIndices.length + node.internalCount

/-- At every internal node the two children were built from index lists whose lengths
differ by at most 1. -/
def Node.balanced {K : Type} : Node K → Prop
  | Node.null => True
  | Node.mk _ _ left right _ =>
    (left.isNull && right.isNull) = true ∨
    (left.inputCount ≤ right.inputCount + 1 ∧ right.inputCount ≤ left.inputCount + 1 ∧
      left.balanced ∧ right.balanced)

/-- The value `query_value` of `knnSearch`. -/
def queryValue {K : Type} (axis : Int) (query : Point K) : K :=
  if axis = 0 then query.x else query.y

/-- The pointer `near_subtree` of `knnSearch`. -/
def nearSubtree {K : Type} [LE K] [DecidableRel (@LE.le K _)] (query : Point K) (axis : Int)
    (value : K) (left right : Node K) : Node K :=
  if queryValue axis query ≤ value then left else right

/-- The pointer `far_subtree` of `knnSearch`. -/
def farSubtree {K : Type} [LE K] [DecidableRel (@LE.le K _)] (query : Point K) (axis : Int)
    (value : K) (left right : Node K) : Node K :=
  if queryValue axis query ≤ value then right else left

/-- The distance from the query to the point with index `i`, as `knnSearch` computes it. -/
def distanceTo {K : Type} [LinearOrderedCommRing K] (points : List (Point K))
    (query : Point K) (i : Nat) : Dist K :=
  calculateDistance (points.getD i default) query

/-- The lower bound behind the pruning test: at every node, every index stored below the
far child is at least `distance_to_plane` away from the query. -/
def Node.farBound {K : Type} [LinearOrderedCommRing K] (points : List (Point K))
    (query : Point K) : Node K → Prop
  | Node.null => True
  | Node.mk axis value left right _ =>
    (∀ i ∈ (farSubtree query axis value left right).leafIndices,
      Dist.abs (queryValue axis query - value) ≤ distanceTo points query i) ∧
    left.farBound points query ∧ right.farBound points query

/-- Skipping the far child is safe with respect to the bound: at every node, for every
accumulator that fails the test `distance_to_plane < worstDist()`, no index stored below
the far child is strictly nearer than `worstDist()`. -/
def Node.skipSafe {K : Type} [LinearOrderedCommRing K] (points : List (Point K))
    (query : Point K) : Node K → Prop
  | Node.null => True
  | Node.mk axis value left right _ =>
    (∀ rs : ResultSet (Dist K),
      ¬ (((Dist.abs (queryValue axis query - value) : Dist K) : WithTop (Dist K)) <
        rs.worstDist) →
      ∀ i ∈ (farSubtree query axis value left right).leafIndices,
        rs.worstDist ≤ ((distanceTo points query i : Dist K) : WithTop (Dist K))) ∧
    left.skipSafe points query ∧ right.skipSafe points query

/-- The child `node->left`; `nullptr` has none. -/
def Node.leftChild {K : Type} : Node K → Node K
  | Node.null => Node.null
  | Node.mk _ _ left _ _ => left

/-- The child `node->right`; `nullptr` has none. -/
def Node.rightChild {K : Type} : Node K → Node K
  | Node.null => Node.null
  | Node.mk _ _ _ right _ => right

/-- Every index seen by the accumulator is covered: some retained candidate is at most as
far as the distance `dist j` of the seen index `j`. -/
def ResultSet.Near {D : Type} [LinearOrder D] (dist : Nat → D) (rs : ResultSet D) : Prop :=
  ∀ j ∈ rs.visited_points, ∃ n ∈ rs.result_set, n.distance ≤ dist j

/-! ## The accumulator -/

section Accumulator

variable {D : Type} [LinearOrder D]

theorem Neighbor.notLess_iff (a b : Neighbor D) : a.notLess b ↔ b.distance ≤ a.distance := by
  simp [Neighbor.notLess, Neighbor.less]

theorem pqEmplace_sorted (n : Neighbor D) {q : List (Neighbor D)}
    (h : q.Sorted Neighbor.notLess) : (pqEmplace n q).Sorted Neighbor.notLess :=
  List.Sorted.orderedInsert n q h

theorem pqEmplace_perm (n : Neighbor D) (q : List (Neighbor D)) :
    (pqEmplace n q).Perm (n :: q) :=
  List.perm_orderedInsert _ n q

theorem pqEmplace_length (n : Neighbor D) (q : List (Neighbor D)) :
    (pqEmplace n q).length = q.length + 1 :=
  List.orderedInsert_length _ q n

theorem mem_pqEmplace {n m : Neighbor D} {q : List (Neighbor D)} :
    m ∈ pqEmplace n q ↔ m = n ∨ m ∈ q := by
  rw [(pqEmplace_perm n q).mem_iff, List.mem_cons]

/-- Case analysis on the four paths through `addPoint`. -/
theorem ResultSet.addPoint_cases (rs : ResultSet D) (distance : D) (index : Nat)
    (motive : ResultSet D → Prop)
    (hseen : index ∈ rs.visited_points → motive rs)
    (hroom : index ∉ rs.visited_points → rs.result_set.length ≤ sizeT rs.k →
      motive { rs with result_set := pqEmplace ⟨distance, index⟩ rs.result_set,
                       visited_points := index :: rs.visited_points })
    (hevict : ∀ top rest, index ∉ rs.visited_points → sizeT rs.k < rs.result_set.length →
      rs.result_set = top :: rest → distance < top.distance →
      motive { rs with result_set := pqEmplace ⟨distance, index⟩ rest,
                       visited_points := index :: rs.visited_points })
    (hskip : ∀ top rest, index ∉ rs.visited_points → sizeT rs.k < rs.result_set.length →
      rs.result_set = top :: rest → top.distance ≤ distance →
      motive { rs with visited_points := index :: rs.visited_points }) :
    motive (rs.addPoint distance index) := by
  obtain ⟨k, q, v⟩ := rs
  unfold ResultSet.addPoint
  by_cases hv : index ∈ v
  · simpa [hv] using hseen hv
  · by_cases hl : q.length ≤ sizeT k
    · simpa [hv, hl] using hroom hv hl
    · cases q with
      | nil => exact absurd (Nat.zero_le _) hl
      | cons top rest =>
        have hl2 := Nat.lt_of_not_le hl
        have hl3 : ¬ rest.length + 1 ≤ sizeT k := by simpa using hl
        by_cases hd : distance < top.distance
        · simpa [hv, hl3, hd] using hevict top rest hv hl2 rfl hd
        · simpa [hv, hl3, hd] using hskip top rest hv hl2 rfl (not_lt.mp hd)

@[simp] theorem ResultSet.addPoint_k (rs : ResultSet D) (distance : D) (index : Nat) :
    (rs.addPoint distance index).k = rs.k := by
  apply ResultSet.addPoint_cases rs distance index (fun s => s.k = rs.k) <;> intros <;> rfl

theorem ResultSet.addPoint_of_seen {rs : ResultSet D} {index : Nat}
    (h : index ∈ rs.visited_points) (distance : D) : rs.addPoint distance index = rs := by
  unfold ResultSet.addPoint
  simp [h]

theorem ResultSet.addPoint_visited (rs : ResultSet D) (distance : D) (index : Nat) :
    (rs.addPoint distance index).visited_points =
      if index ∈ rs.visited_points then rs.visited_points else index :: rs.visited_points := by
  apply ResultSet.addPoint_cases rs distance index
    (fun s => s.visited_points =
      if index ∈ rs.visited_points then rs.visited_points else index :: rs.visited_points)
  · intro h; simp [h]
  · intro h _; simp [h]
  · intro _ _ h _ _ _; simp [h]
  · intro _ _ h _ _ _; simp [h]

@[simp] theorem ResultSet.fresh_k {E : Type} (k : Int) :
    (ResultSet.fresh k : ResultSet E).k = k := rfl

theorem ResultSet.addPoints_nil (rs : ResultSet D) : rs.addPoints [] = rs := rfl

theorem ResultSet.addPoints_cons (rs : ResultSet D) (c : D × Nat) (calls : List (D × Nat)) :
    rs.addPoints (c :: calls) = (rs.addPoint c.1 c.2).addPoints calls := rfl

theorem ResultSet.addPoints_append (rs : ResultSet D) (xs ys : List (D × Nat)) :
    rs.addPoints (xs ++ ys) = (rs.addPoints xs).addPoints ys := by
  unfold ResultSet.addPoints
  rw [List.foldl_append]

theorem ResultSet.addPoints_concat (rs : ResultSet D) (xs : List (D × Nat)) (c : D × Nat) :
    rs.addPoints (xs ++ [c]) = (rs.addPoints xs).addPoint c.1 c.2 := by
  rw [ResultSet.addPoints_append]; rfl

@[simp] theorem ResultSet.addPoints_k (rs : ResultSet D) (calls : List (D × Nat)) :
    (rs.addPoints calls).k = rs.k := by
  induction calls generalizing rs with
  | nil => rfl
  | cons c cs ih => rw [ResultSet.addPoints_cons, ih, ResultSet.addPoint_k]

/-- Every candidate held after `addPoint` was held before or is the candidate just offered,
whose index was then new. -/
theorem ResultSet.mem_addPoint {rs : ResultSet D} {distance : D} {index : Nat}
    {m : Neighbor D} (h : m ∈ (rs.addPoint distance index).result_set) :
    m ∈ rs.result_set ∨ (m = ⟨distance, index⟩ ∧ index ∉ rs.visited_points) := by
  revert h
  apply ResultSet.addPoint_cases rs distance index
    (fun s => m ∈ s.result_set →
      m ∈ rs.result_set ∨ (m = ⟨distance, index⟩ ∧ index ∉ rs.visited_points))
  · intro _ h; exact Or.inl h
  · intro hv _ h
    rcases mem_pqEmplace.mp h with h | h
    · exact Or.inr ⟨h, hv⟩
    · exact Or.inl h
  · intro top rest hv _ hq _ h
    rcases mem_pqEmplace.mp h with h | h
    · exact Or.inr ⟨h, hv⟩
    · exact Or.inl (by rw [hq]; exact List.mem_cons_of_mem _ h)
  · intro _ _ _ _ _ _ h; exact Or.inl h

theorem ResultSet.mem_visited_addPoint (rs : ResultSet D) (distance : D) (index i : Nat) :
    i ∈ (rs.addPoint distance index).visited_points ↔ i = index ∨ i ∈ rs.visited_points := by
  rw [ResultSet.addPoint_visited]
  by_cases h : index ∈ rs.visited_points
  · rw [if_pos h]
    constructor
    · exact Or.inr
    · rintro (rfl | h2)
      · exact h
      · exact h2
  · rw [if_neg h, List.mem_cons]

theorem ResultSet.mem_visited_addPoints (rs : ResultSet D) (calls : List (D × Nat)) (i : Nat) :
    i ∈ (rs.addPoints calls).visited_points ↔
      i ∈ rs.visited_points ∨ i ∈ calls.map Prod.snd := by
  induction calls generalizing rs with
  | nil => simp [ResultSet.addPoints_nil]
  | cons c cs ih =>
    rw [ResultSet.addPoints_cons, ih, ResultSet.mem_visited_addPoint, List.map_cons,
      List.mem_cons]
    tauto

theorem ResultSet.inv_fresh (k : Int) : (ResultSet.fresh k : ResultSet D).Inv where
  sorted := List.sorted_nil
  visited_nodup := List.nodup_nil
  index_nodup := List.nodup_nil
  index_visited := by intro n h; cases h
  length_eq := by simp [ResultSet.fresh]

theorem ResultSet.Inv.addPoint {rs : ResultSet D} (h : rs.Inv) (distance : D) (index : Nat) :
    (rs.addPoint distance index).Inv := by
  apply ResultSet.addPoint_cases rs distance index (fun s => s.Inv)
  · intro _; exact h
  · intro hv hl
    refine ⟨pqEmplace_sorted _ h.sorted, List.nodup_cons.mpr ⟨hv, h.visited_nodup⟩, ?_, ?_, ?_⟩
    · refine ((pqEmplace_perm _ _).map Neighbor.index).nodup_iff.mpr ?_
      rw [List.map_cons, List.nodup_cons]
      refine ⟨?_, h.index_nodup⟩
      intro hm
      obtain ⟨n, hn, hni⟩ := List.mem_map.mp hm
      have hni2 : n.index = index := hni
      exact hv (hni2 ▸ h.index_visited n hn)
    · intro n hn
      rcases mem_pqEmplace.mp hn with rfl | hn
      · exact List.mem_cons_self _ _
      · exact List.mem_cons_of_mem _ (h.index_visited n hn)
    · have hle := h.length_eq
      simp only [pqEmplace_length, List.length_cons]
      omega
  · intro top rest hv hl hq hd
    have hs : (top :: rest).Sorted Neighbor.notLess := hq ▸ h.sorted
    have hn : ((top :: rest).map Neighbor.index).Nodup := hq ▸ h.index_nodup
    refine ⟨pqEmplace_sorted _ hs.of_cons, List.nodup_cons.mpr ⟨hv, h.visited_nodup⟩,
      ?_, ?_, ?_⟩
    · refine ((pqEmplace_perm _ _).map Neighbor.index).nodup_iff.mpr ?_
      rw [List.map_cons, List.nodup_cons]
      refine ⟨?_, (List.nodup_cons.mp hn).2⟩
      intro hm
      obtain ⟨n, hn, hni⟩ := List.mem_map.mp hm
      have hni2 : n.index = index := hni
      exact hv (hni2 ▸ h.index_visited n (by rw [hq]; exact List.mem_cons_of_mem _ hn))
    · intro n hn
      rcases mem_pqEmplace.mp hn with rfl | hn
      · exact List.mem_cons_self _ _
      · exact List.mem_cons_of_mem _
          (h.index_visited n (by rw [hq]; exact List.mem_cons_of_mem _ hn))
    · have hle := h.length_eq
      rw [hq] at hle hl
      simp only [pqEmplace_length, List.length_cons] at *
      omega
  · intro top rest hv hl hq hd
    refine ⟨h.sorted, List.nodup_cons.mpr ⟨hv, h.visited_nodup⟩, h.index_nodup, ?_, ?_⟩
    · intro n hn
      exact List.mem_cons_of_mem _ (h.index_visited n hn)
    · have hle := h.length_eq
      simp only [List.length_cons] at *
      omega

theorem ResultSet.Inv.addPoints {rs : ResultSet D} (h : rs.Inv) (calls : List (D × Nat)) :
    (rs.addPoints calls).Inv := by
  induction calls generalizing rs with
  | nil => exact h
  | cons c cs ih => exact ih (h.addPoint c.1 c.2)

theorem sizeT_natCast (k : Nat) (hk : k < 2 ^ 31) : sizeT (k : Int) = k := by
  unfold sizeT
  omega

/-- The head of a queue listed from the top down is a worst candidate. -/
theorem le_top_of_sorted {top : Neighbor D} {rest : List (Neighbor D)}
    (h : (top :: rest).Sorted Neighbor.notLess) {y : Neighbor D} (hy : y ∈ top :: rest) :
    y.distance ≤ top.distance := by
  rcases List.mem_cons.mp hy with rfl | hy
  · exact le_refl _
  · exact (Neighbor.notLess_iff _ _).mp (List.rel_of_sorted_cons h y hy)

theorem ResultSet.tracks_fresh (k : Int) : (ResultSet.fresh k : ResultSet D).Tracks [] :=
  ⟨List.Perm.refl _, [], List.Perm.refl _, by intro x hx; cases hx⟩

theorem ResultSet.Tracks.of_perm {rs : ResultSet D} {xs ys : List (Neighbor D)}
    (h : rs.Tracks xs) (hp : xs.Perm ys) : rs.Tracks ys := by
  obtain ⟨hv, rejected, hr, hdom⟩ := h
  exact ⟨(hp.symm.map _).trans hv, rejected, hr.trans hp, hdom⟩

/-- Offering a candidate with a new index keeps the nearest candidates. -/
theorem ResultSet.Tracks.addPoint_new {rs : ResultSet D} (hi : rs.Inv)
    {offered : List (Neighbor D)} (ht : rs.Tracks offered) (distance : D) {index : Nat}
    (hv : index ∉ rs.visited_points) :
    (rs.addPoint distance index).Tracks (⟨distance, index⟩ :: offered) := by
  obtain ⟨hvis, rejected, hperm, hdom⟩ := ht
  have hlen : rs.result_set.length + rejected.length = rs.visited_points.length := by
    have h1 := hperm.length_eq
    have h2 := hvis.length_eq
    simp only [List.length_append, List.length_map] at h1 h2
    omega
  apply ResultSet.addPoint_cases rs distance index
    (fun s => s.Tracks (⟨distance, index⟩ :: offered))
  · intro h; exact absurd h hv
  · intro _ hl
    have hle := hi.length_eq
    have hnil : rejected = [] := List.length_eq_zero.mp (by omega)
    subst hnil
    refine ⟨?_, [], ?_, by intro x hx; cases hx⟩
    · simpa using hvis
    · simpa using (pqEmplace_perm _ _).trans (List.Perm.cons _ (by simpa using hperm))
  · intro top rest _ _ hq hd
    have hs : (top :: rest).Sorted Neighbor.notLess := hq ▸ hi.sorted
    rw [hq] at hperm hdom
    refine ⟨by simpa using hvis, top :: rejected, ?_, ?_⟩
    · refine (List.Perm.append_right _ (pqEmplace_perm _ rest)).trans ?_
      refine List.Perm.trans ?_ (List.Perm.cons _ hperm)
      simp only [List.cons_append]
      exact List.Perm.cons _ List.perm_middle
    · intro x hx y hy
      have hy2 : y.distance ≤ top.distance := by
        rcases mem_pqEmplace.mp hy with rfl | hy
        · exact le_of_lt hd
        · exact le_top_of_sorted hs (List.mem_cons_of_mem _ hy)
      rcases List.mem_cons.mp hx with rfl | hx
      · exact hy2
      · exact le_trans hy2 (hdom x hx top (List.mem_cons_self _ _))
  · intro top rest _ _ hq hd
    have hs : (top :: rest).Sorted Neighbor.notLess := hq ▸ hi.sorted
    refine ⟨by simpa using hvis, ⟨distance, index⟩ :: rejected, ?_, ?_⟩
    · exact List.perm_middle.trans (List.Perm.cons _ hperm)
    · intro x hx y hy
      rcases List.mem_cons.mp hx with rfl | hx
      · have hy2 : y ∈ top :: rest := hq ▸ hy
        exact le_trans (le_top_of_sorted hs hy2) hd
      · exact hdom x hx y hy

/-- Offering candidates with pairwise distinct new indices keeps the nearest candidates. -/
theorem ResultSet.Tracks.addPoints_new {rs : ResultSet D} (hi : rs.Inv)
    {offered : List (Neighbor D)} (ht : rs.Tracks offered) (calls : List (D × Nat))
    (hd : (calls.map Prod.snd).Nodup) (hv : ∀ c ∈ calls, c.2 ∉ rs.visited_points) :
    (rs.addPoints calls).Tracks (calls.map (fun c => ⟨c.1, c.2⟩) ++ offered) := by
  induction calls generalizing rs offered with
  | nil => simpa [ResultSet.addPoints_nil] using ht
  | cons c cs ih =>
    rw [List.map_cons, List.nodup_cons] at hd
    have hc : c.2 ∉ rs.visited_points := hv c (List.mem_cons_self _ _)
    have hv2 : ∀ c2 ∈ cs, c2.2 ∉ (rs.addPoint c.1 c.2).visited_points := by
      intro c2 hc2 hm
      rcases (ResultSet.mem_visited_addPoint rs c.1 c.2 c2.2).mp hm with h | h
      · exact hd.1 (h ▸ List.mem_map_of_mem Prod.snd hc2)
      · exact hv c2 (List.mem_cons_of_mem _ hc2) h
    have := ih (hi.addPoint c.1 c.2) (ht.addPoint_new hi c.1 hc) hd.2 hv2
    rw [ResultSet.addPoints_cons]
    refine this.of_perm ?_
    simp only [List.map_cons, List.cons_append]
    exact List.perm_middle

/-- A part of a list that has the length `min n m` and is dominated by the rest of the list
is, up to order, the list of the `m` smallest elements. -/
theorem perm_take_insertionSort {held all : List D} (rest : List D) (m : Nat)
    (hp : (held ++ rest).Perm all) (hdom : ∀ x ∈ rest, ∀ y ∈ held, y ≤ x)
    (hlen : held.length = min all.length m) :
    held.Perm ((all.insertionSort (· ≤ ·)).take m) := by
  have hs : (held.insertionSort (· ≤ ·) ++ rest.insertionSort (· ≤ ·)).Sorted (· ≤ ·) := by
    refine List.pairwise_append.mpr ⟨List.sorted_insertionSort _ _, List.sorted_insertionSort _ _, ?_⟩
    intro a ha b hb
    exact hdom b ((List.mem_insertionSort _).mp hb) a ((List.mem_insertionSort _).mp ha)
  have hperm : (held.insertionSort (· ≤ ·) ++ rest.insertionSort (· ≤ ·)).Perm
      (all.insertionSort (· ≤ ·)) :=
    ((List.perm_insertionSort _ held).append (List.perm_insertionSort _ rest)).trans
      (hp.trans (List.perm_insertionSort _ all).symm)
  have heq := List.eq_of_perm_of_sorted hperm hs (List.sorted_insertionSort _ _)
  have hl := hp.length_eq
  rw [List.length_append] at hl
  rw [← heq]
  have htake : (held.insertionSort (· ≤ ·) ++ rest.insertionSort (· ≤ ·)).take m =
      held.insertionSort (· ≤ ·) := by
    by_cases hm : held.length = m
    · exact List.take_left' (by rw [List.length_insertionSort]; exact hm)
    · have hr : rest = [] := List.length_eq_zero.mp (by omega)
      subst hr
      simp only [List.insertionSort, List.append_nil]
      exact List.take_of_length_le (by rw [List.length_insertionSort]; omega)
  rw [htake]
  exact (List.perm_insertionSort _ held).symm

/-- The distances held after offers with pairwise distinct indices to a fresh accumulator
are, up to order, the `min n (k + 1)` smallest offered distances. -/
theorem ResultSet.retained_perm_take (k : Nat) (hk : k < 2 ^ 31) (calls : List (D × Nat))
    (hd : (calls.map Prod.snd).Nodup) :
    (((ResultSet.fresh (k : Int)).addPoints calls).result_set.map Neighbor.distance).Perm
      (((calls.map Prod.fst).insertionSort (· ≤ ·)).take (min calls.length (k + 1))) := by
  have hi : ((ResultSet.fresh (k : Int) : ResultSet D).addPoints calls).Inv :=
    (ResultSet.inv_fresh _).addPoints calls
  have ht := ResultSet.Tracks.addPoints_new (ResultSet.inv_fresh (k : Int))
    (ResultSet.tracks_fresh (k : Int)) calls hd (by intro c _ h; cases h)
  obtain ⟨hvis, rejected, hperm, hdom⟩ := ht
  have hlen := hi.length_eq
  have hv := hvis.length_eq
  simp only [List.append_nil, List.length_map, ResultSet.addPoints_k, ResultSet.fresh_k]
    at hv hlen
  rw [sizeT_natCast k hk] at hlen
  refine perm_take_insertionSort (rejected.map Neighbor.distance)
    (min calls.length (k + 1)) ?_ ?_ ?_
  · have := hperm.map Neighbor.distance
    simpa [List.map_append, List.map_map, Function.comp_def] using this
  · intro x hx y hy
    obtain ⟨x2, hx2, rfl⟩ := List.mem_map.mp hx
    obtain ⟨y2, hy2, rfl⟩ := List.mem_map.mp hy
    exact hdom x2 hx2 y2 hy2
  · simp only [List.length_map]
    omega

/-- Once the index of the top is in `printed_indices`, the loop prints only elements below
the top, in the order of the queue: the last read, of the slot left behind by the last
pop, finds an index that is already printed. -/
theorem printLoop_sublist_of_printed {K E : Type} [Zero K] (points : List (Point K))
    (temp : List (Neighbor E)) :
    ∀ (top : Neighbor E) (printed : List Nat), top.index ∈ printed →
      ((printLoop points (top :: temp) printed).map Prod.snd).Sublist
        (temp.map Neighbor.distance) := by
  induction temp with
  | nil =>
    intro top printed h
    simp [printLoop, resultAfterPop, h]
  | cons next temp ih =>
    intro top printed _
    rw [printLoop]
    have e : resultAfterPop top (next :: temp) = next := rfl
    rw [e]
    by_cases h : next.index ∈ printed
    · rw [if_pos h, List.map_cons]
      exact (ih next printed h).cons _
    · rw [if_neg h, List.map_cons, List.map_cons]
      exact (ih next (next.index :: printed) (List.mem_cons_self _ _)).cons₂ _

/-- The lines printed by `printResults` follow the order of the queue. -/
theorem printLoop_sublist {K E : Type} [Zero K] (points : List (Point K))
    (temp : List (Neighbor E)) (printed : List Nat) :
    ((printLoop points temp printed).map Prod.snd).Sublist (temp.map Neighbor.distance) := by
  cases temp with
  | nil => simp [printLoop]
  | cons top temp =>
    cases temp with
    | nil =>
      rw [printLoop]
      have e : resultAfterPop top ([] : List (Neighbor E)) = top := rfl
      rw [e]
      by_cases h : top.index ∈ printed
      · rw [if_pos h]
        simp [printLoop]
      · rw [if_neg h]
        simp [printLoop]
    | cons next temp =>
      rw [printLoop]
      have e : resultAfterPop top (next :: temp) = next := rfl
      rw [e]
      by_cases h : next.index ∈ printed
      · rw [if_pos h]
        exact ((printLoop_sublist_of_printed points temp next printed h).cons _).cons _
      · rw [if_neg h, List.map_cons, List.map_cons, List.map_cons]
        exact ((printLoop_sublist_of_printed points temp next (next.index :: printed)
          (List.mem_cons_self _ _)).cons₂ _).cons _

theorem printLoop_length_le {K E : Type} [Zero K] (points : List (Point K))
    (temp : List (Neighbor E)) (printed : List Nat) :
    (printLoop points temp printed).length ≤ temp.length := by
  have := (printLoop_sublist points temp printed).length_le
  simpa using this

/-- The distances of a queue listed from the top down do not increase. -/
theorem sorted_distance_of_sorted {q : List (Neighbor D)} (h : q.Sorted Neighbor.notLess) :
    (q.map Neighbor.distance).Sorted (· ≥ ·) := by
  refine List.pairwise_map.mpr (h.imp ?_)
  intro a b hab
  exact (Neighbor.notLess_iff a b).mp hab

/-- A candidate held by an accumulator carries the first distance offered for its index. -/
theorem ResultSet.retained_first_offer (k : Int) (calls : List (D × Nat)) :
    ∀ n ∈ ((ResultSet.fresh k : ResultSet D).addPoints calls).result_set,
      calls.find? (fun c => c.2 == n.index) = some (n.distance, n.index) := by
  induction calls using List.reverseRecOn with
  | nil => intro n hn; cases hn
  | append_singleton xs c ih =>
    intro n hn
    rw [ResultSet.addPoints_concat] at hn
    rw [List.find?_append]
    rcases ResultSet.mem_addPoint hn with h | ⟨h, hv⟩
    · rw [ih n h]; rfl
    · have hnone : xs.find? (fun c2 => c2.2 == n.index) = none := by
        rw [List.find?_eq_none]
        intro x hx hxi
        apply hv
        rw [ResultSet.mem_visited_addPoints]
        right
        have : x.2 = c.2 := by rw [h] at hxi; simpa using hxi
        exact this ▸ List.mem_map_of_mem Prod.snd hx
      rw [hnone, h]
      simp

/-- The number of indices seen by an accumulator started fresh. -/
theorem ResultSet.visited_length (k : Int) (calls : List (D × Nat)) :
    ((ResultSet.fresh k : ResultSet D).addPoints calls).visited_points.length =
      (calls.map Prod.snd).toFinset.card := by
  have hi : ((ResultSet.fresh k : ResultSet D).addPoints calls).Inv :=
    (ResultSet.inv_fresh k).addPoints calls
  rw [← List.toFinset_card_of_nodup hi.visited_nodup]
  congr 1
  ext i
  rw [List.mem_toFinset, List.mem_toFinset, ResultSet.mem_visited_addPoints]
  simp [ResultSet.fresh]

theorem ResultSet.worstDist_eq_top_iff {E : Type} (rs : ResultSet E) :
    rs.worstDist = ⊤ ↔ rs.result_set = [] := by
  unfold ResultSet.worstDist
  cases rs.result_set with
  | nil => simp
  | cons top rest => simp

/-- A bound met by some retained candidate is still met after `addPoint`. -/
theorem ResultSet.addPoint_keeps_bound (rs : ResultSet D) (distance : D) (index : Nat)
    {b : D} (h : ∃ n ∈ rs.result_set, n.distance ≤ b) :
    ∃ n ∈ (rs.addPoint distance index).result_set, n.distance ≤ b := by
  obtain ⟨n, hn, hb⟩ := h
  apply ResultSet.addPoint_cases rs distance index
    (fun s => ∃ n ∈ s.result_set, n.distance ≤ b)
  · intro _; exact ⟨n, hn, hb⟩
  · intro _ _
    exact ⟨n, mem_pqEmplace.mpr (Or.inr hn), hb⟩
  · intro top rest _ _ hq hd
    rw [hq] at hn
    rcases List.mem_cons.mp hn with rfl | hr
    · exact ⟨⟨distance, index⟩, mem_pqEmplace.mpr (Or.inl rfl), le_trans (le_of_lt hd) hb⟩
    · exact ⟨n, mem_pqEmplace.mpr (Or.inr hr), hb⟩
  · intro _ _ _ _ _ _; exact ⟨n, hn, hb⟩

theorem ResultSet.addPoints_keeps_bound (rs : ResultSet D) (calls : List (D × Nat))
    {b : D} (h : ∃ n ∈ rs.result_set, n.distance ≤ b) :
    ∃ n ∈ (rs.addPoints calls).result_set, n.distance ≤ b := by
  induction calls generalizing rs with
  | nil => exact h
  | cons c cs ih =>
    rw [ResultSet.addPoints_cons]
    exact ih _ (ResultSet.addPoint_keeps_bound rs c.1 c.2 h)

/-- After a candidate with a new index is offered, some retained candidate is at most as
far as it. -/
theorem ResultSet.addPoint_bound_new (rs : ResultSet D) (distance : D) {index : Nat}
    (hv : index ∉ rs.visited_points) :
    ∃ n ∈ (rs.addPoint distance index).result_set, n.distance ≤ distance := by
  apply ResultSet.addPoint_cases rs distance index
    (fun s => ∃ n ∈ s.result_set, n.distance ≤ distance)
  · intro h; exact absurd h hv
  · intro _ _
    exact ⟨⟨distance, index⟩, mem_pqEmplace.mpr (Or.inl rfl), le_refl _⟩
  · intro top rest _ _ _ _
    exact ⟨⟨distance, index⟩, mem_pqEmplace.mpr (Or.inl rfl), le_refl _⟩
  · intro top rest _ _ hq hd
    exact ⟨top, by rw [hq]; exact List.mem_cons_self _ _, hd⟩

theorem ResultSet.near_fresh (dist : Nat → D) (k : Int) :
    (ResultSet.fresh k : ResultSet D).Near dist := by
  intro j hj; cases hj

theorem ResultSet.Near.after_addPoint {dist : Nat → D} {rs : ResultSet D} (h : rs.Near dist)
    (index : Nat) : (rs.addPoint (dist index) index).Near dist := by
  intro j hj
  by_cases hv : index ∈ rs.visited_points
  · rw [ResultSet.addPoint_of_seen hv] at hj ⊢
    exact h j hj
  · rcases (ResultSet.mem_visited_addPoint rs (dist index) index j).mp hj with rfl | hj2
    · exact ResultSet.addPoint_bound_new rs (dist j) hv
    · exact ResultSet.addPoint_keeps_bound rs (dist index) index (h j hj2)

theorem ResultSet.Near.after_addPoints {dist : Nat → D} {rs : ResultSet D} (h : rs.Near dist)
    (calls : List (D × Nat)) (hc : ∀ c ∈ calls, c.1 = dist c.2) :
    (rs.addPoints calls).Near dist := by
  induction calls generalizing rs with
  | nil => exact h
  | cons c cs ih =>
    rw [ResultSet.addPoints_cons]
    apply ih
    · rw [hc c (List.mem_cons_self _ _)]
      exact h.after_addPoint c.2
    · intro c2 hc2
      exact hc c2 (List.mem_cons_of_mem _ hc2)

/-- Every candidate held after a sequence of offers was held before or is one of the
offers. -/
theorem ResultSet.mem_addPoints {rs : ResultSet D} {calls : List (D × Nat)}
    {m : Neighbor D} (h : m ∈ (rs.addPoints calls).result_set) :
    m ∈ rs.result_set ∨ ∃ c ∈ calls, m = ⟨c.1, c.2⟩ := by
  induction calls generalizing rs with
  | nil => exact Or.inl h
  | cons c cs ih =>
    rw [ResultSet.addPoints_cons] at h
    rcases ih h with h1 | ⟨c2, hc2, e⟩
    · rcases ResultSet.mem_addPoint h1 with h2 | ⟨h2, _⟩
      · exact Or.inl h2
      · exact Or.inr ⟨c, List.mem_cons_self _ _, h2⟩
    · exact Or.inr ⟨c2, List.mem_cons_of_mem _ hc2, e⟩

/-- The value of `worstDist()` on a nonempty queue is the distance of a held candidate. -/
theorem ResultSet.worstDist_mem {E : Type} (rs : ResultSet E) (h : rs.result_set ≠ []) :
    ∃ n ∈ rs.result_set, rs.worstDist = (n.distance : WithTop E) := by
  unfold ResultSet.worstDist
  cases hq : rs.result_set with
  | nil => exact absurd hq h
  | cons top rest => exact ⟨top, List.mem_cons_self _ _, rfl⟩

/-- On a nonempty queue `worstDist()` is at most every bound on the held distances. -/
theorem ResultSet.worstDist_le_of_forall {E : Type} [LinearOrder E] (s : ResultSet E) {b : E}
    (hne : s.result_set ≠ []) (h : ∀ n ∈ s.result_set, n.distance ≤ b) :
    s.worstDist ≤ (b : WithTop E) := by
  obtain ⟨n, hn, hw⟩ := ResultSet.worstDist_mem s hne
  rw [hw]
  exact WithTop.coe_le_coe.mpr (h n hn)

/-- Once more than `k` candidates are held, `addPoint` keeps that many and does not raise
`worstDist()`. -/
theorem ResultSet.addPoint_full {rs : ResultSet D} (hi : rs.Inv)
    (hfull : sizeT rs.k < rs.result_set.length) (distance : D) (index : Nat) :
    (rs.addPoint distance index).worstDist ≤ rs.worstDist ∧
      sizeT (rs.addPoint distance index).k < (rs.addPoint distance index).result_set.length := by
  apply ResultSet.addPoint_cases rs distance index
    (fun s => s.worstDist ≤ rs.worstDist ∧ sizeT s.k < s.result_set.length)
  · intro _; exact ⟨le_refl _, hfull⟩
  · intro _ hl; omega
  · intro top rest _ _ hq hd
    have hs : (top :: rest).Sorted Neighbor.notLess := hq ▸ hi.sorted
    have hlen := pqEmplace_length (⟨distance, index⟩ : Neighbor D) rest
    constructor
    · have hold : rs.worstDist = (top.distance : WithTop D) := by
        unfold ResultSet.worstDist; rw [hq]
      rw [hold]
      apply ResultSet.worstDist_le_of_forall
      · intro h0
        simp only [] at h0
        rw [h0] at hlen
        simp at hlen
      · intro n hn
        rcases mem_pqEmplace.mp hn with rfl | hr
        · exact le_of_lt hd
        · exact le_top_of_sorted hs (List.mem_cons_of_mem _ hr)
    · rw [hq] at hfull
      simp only [List.length_cons] at hfull
      simp only []
      omega
  · intro _ _ _ _ _ _
    exact ⟨le_refl _, hfull⟩

theorem ResultSet.addPoints_full {rs : ResultSet D} (hi : rs.Inv)
    (hfull : sizeT rs.k < rs.result_set.length) (calls : List (D × Nat)) :
    (rs.addPoints calls).worstDist ≤ rs.worstDist := by
  induction calls generalizing rs with
  | nil => exact le_refl _
  | cons c cs ih =>
    rw [ResultSet.addPoints_cons]
    have h1 := ResultSet.addPoint_full hi hfull c.1 c.2
    exact le_trans (ih (hi.addPoint c.1 c.2) h1.2) h1.1

/-- When `worstDist()` is at most a finite bound, the top candidate meets the bound. -/
theorem ResultSet.exists_of_worstDist_le {E : Type} [LinearOrder E] (rs : ResultSet E) {b : E}
    (h : rs.worstDist ≤ (b : WithTop E)) : ∃ n ∈ rs.result_set, n.distance ≤ b := by
  unfold ResultSet.worstDist at h
  cases hq : rs.result_set with
  | nil =>
    rw [hq] at h
    exact absurd (lt_of_le_of_lt h (WithTop.coe_lt_top b)) (lt_irrefl _)
  | cons top rest =>
    rw [hq] at h
    exact ⟨top, List.mem_cons_self _ _, WithTop.coe_le_coe.mp h⟩

/-- A nonempty queue has a nearest candidate. -/
theorem exists_nearest {q : List (Neighbor D)} (h : q ≠ []) :
    ∃ n ∈ q, ∀ m ∈ q, n.distance ≤ m.distance := by
  induction q with
  | nil => exact absurd rfl h
  | cons a q ih =>
    by_cases hq : q = []
    · subst hq
      exact ⟨a, List.mem_cons_self _ _, by
        intro m hm
        rw [List.mem_singleton.mp hm]⟩
    · obtain ⟨n, hn, hmin⟩ := ih hq
      rcases le_total a.distance n.distance with hle | hle
      · refine ⟨a, List.mem_cons_self _ _, ?_⟩
        intro m hm
        rcases List.mem_cons.mp hm with rfl | hm
        · exact le_refl _
        · exact le_trans hle (hmin m hm)
      · refine ⟨n, List.mem_cons_of_mem _ hn, ?_⟩
        intro m hm
        rcases List.mem_cons.mp hm with rfl | hm
        · exact hle
        · exact hmin m hm

end Accumulator

/-! ## The builder -/

section Build

variable {K : Type} [Zero K] [LinearOrder K]

theorem sortedBefore_iff (points : List (Point K)) (axis : Int) (i j : Nat) :
    sortedBefore points axis i j ↔ coord points axis i ≤ coord points axis j := by
  simp [sortedBefore, comp]

theorem sortIndices_perm (points : List (Point K)) (axis : Int) (point_indices : List Nat) :
    (sortIndices points axis point_indices).Perm point_indices :=
  List.perm_insertionSort _ _

theorem sortIndices_length (points : List (Point K)) (axis : Int) (point_indices : List Nat) :
    (sortIndices points axis point_indices).length = point_indices.length :=
  List.length_insertionSort _ _

theorem sortIndices_sorted (points : List (Point K)) (axis : Int) (point_indices : List Nat) :
    (sortIndices points axis point_indices).Sorted
      (fun i j => coord points axis i ≤ coord points axis j) := by
  have h : (sortIndices points axis point_indices).Sorted (sortedBefore points axis) :=
    List.sorted_insertionSort _ _
  exact h.imp (fun hab => (sortedBefore_iff points axis _ _).mp hab)

/-- The recursion bound does not matter once it is at least the length of the list. -/
theorem buildFuel_eq (points : List (Point K)) (leaf_size : Int) :
    ∀ (fuel1 fuel2 : Nat) (point_indices : List Nat) (axis : Int),
      point_indices.length ≤ fuel1 → point_indices.length ≤ fuel2 →
      buildFuel points leaf_size fuel1 point_indices axis =
        buildFuel points leaf_size fuel2 point_indices axis := by
  intro fuel1
  induction fuel1 with
  | zero =>
    intro fuel2 point_indices axis h1 _
    have h0 : point_indices.length ≤ sizeT leaf_size := le_trans h1 (Nat.zero_le _)
    unfold buildFuel
    rw [if_pos h0, if_pos h0]
  | succ f1 ih =>
    intro fuel2 point_indices axis h1 h2
    by_cases hl : point_indices.length ≤ sizeT leaf_size
    · unfold buildFuel
      rw [if_pos hl, if_pos hl]
    · cases fuel2 with
      | zero => exact absurd (le_trans h2 (Nat.zero_le _)) hl
      | succ f2 =>
        have hpos : 0 < point_indices.length := by omega
        have hlen := sortIndices_length points axis point_indices
        rw [buildFuel, buildFuel, if_neg hl, if_neg hl]
        simp only []
        congr 1
        · apply ih
          · rw [List.length_take, hlen]; omega
          · rw [List.length_take, hlen]; omega
        · apply ih
          · rw [List.length_drop, hlen]; omega
          · rw [List.length_drop, hlen]; omega

/-- The first `return` of `kdtreeRecursiveBuild`. -/
theorem kdtreeRecursiveBuild_leaf (points : List (Point K)) (point_indices : List Nat)
    (axis leaf_size : Int) (h : point_indices.length ≤ sizeT leaf_size) :
    kdtreeRecursiveBuild points point_indices axis leaf_size =
      Node.mk axis 0 Node.null Node.null point_indices := by
  unfold kdtreeRecursiveBuild buildFuel
  rw [if_pos h]

/-- The second `return` of `kdtreeRecursiveBuild`, with its two recursive calls. -/
theorem kdtreeRecursiveBuild_split (points : List (Point K)) (point_indices : List Nat)
    (axis leaf_size : Int) (h : sizeT leaf_size < point_indices.length) :
    kdtreeRecursiveBuild points point_indices axis leaf_size =
      Node.mk axis
        (coord points axis
          ((sortIndices points axis point_indices).getD (point_indices.length / 2) 0))
        (kdtreeRecursiveBuild points
          ((sortIndices points axis point_indices).take (point_indices.length / 2))
          ((axis + 1).tmod 2) leaf_size)
        (kdtreeRecursiveBuild points
          ((sortIndices points axis point_indices).drop (point_indices.length / 2 + 1))
          ((axis + 1).tmod 2) leaf_size)
        [] := by
  have hl : ¬ point_indices.length ≤ sizeT leaf_size := Nat.not_le.mpr h
  have hlen := sortIndices_length points axis point_indices
  unfold kdtreeRecursiveBuild
  obtain ⟨n, hn⟩ : ∃ n, point_indices.length = n + 1 := ⟨point_indices.length - 1, by omega⟩
  rw [hn, buildFuel, if_neg (hn ▸ hl)]
  simp only [hlen, hn]
  congr 1
  · apply buildFuel_eq
    · rw [List.length_take, hlen]; omega
    · exact le_refl _
  · apply buildFuel_eq
    · rw [List.length_drop, hlen]; omega
    · exact le_refl _

/-- Induction along the recursion of `kdtreeRecursiveBuild`. -/
theorem kdtreeRecursiveBuild_induction (points : List (Point K)) (leaf_size : Int)
    (motive : List Nat → Int → Node K → Prop)
    (leaf : ∀ point_indices axis, point_indices.length ≤ sizeT leaf_size →
      motive point_indices axis (Node.mk axis 0 Node.null Node.null point_indices))
    (split : ∀ point_indices axis, sizeT leaf_size < point_indices.length →
      motive ((sortIndices points axis point_indices).take (point_indices.length / 2))
        ((axis + 1).tmod 2)
        (kdtreeRecursiveBuild points
          ((sortIndices points axis point_indices).take (point_indices.length / 2))
          ((axis + 1).tmod 2) leaf_size) →
      motive ((sortIndices points axis point_indices).drop (point_indices.length / 2 + 1))
        ((axis + 1).tmod 2)
        (kdtreeRecursiveBuild points
          ((sortIndices points axis point_indices).drop (point_indices.length / 2 + 1))
          ((axis + 1).tmod 2) leaf_size) →
      motive point_indices axis
        (Node.mk axis
          (coord points axis
            ((sortIndices points axis point_indices).getD (point_indices.length / 2) 0))
          (kdtreeRecursiveBuild points
            ((sortIndices points axis point_indices).take (point_indices.length / 2))
            ((axis + 1).tmod 2) leaf_size)
          (kdtreeRecursiveBuild points
            ((sortIndices points axis point_indices).drop (point_indices.length / 2 + 1))
            ((axis + 1).tmod 2) leaf_size)
          [])) :
    ∀ point_indices axis,
      motive point_indices axis (kdtreeRecursiveBuild points point_indices axis leaf_size) := by
  suffices h : ∀ n, ∀ point_indices : List Nat, point_indices.length = n → ∀ axis,
      motive point_indices axis (kdtreeRecursiveBuild points point_indices axis leaf_size) from
    fun point_indices axis => h _ point_indices rfl axis
  intro n
  induction n using Nat.strong_induction_on with
  | _ n ih =>
    intro point_indices hn axis
    have hlen := sortIndices_length points axis point_indices
    by_cases hl : point_indices.length ≤ sizeT leaf_size
    · rw [kdtreeRecursiveBuild_leaf points point_indices axis leaf_size hl]
      exact leaf point_indices axis hl
    · have hl2 : sizeT leaf_size < point_indices.length := Nat.lt_of_not_le hl
      rw [kdtreeRecursiveBuild_split points point_indices axis leaf_size hl2]
      apply split point_indices axis hl2
      · exact ih _ (by rw [List.length_take, hlen]; omega) _ rfl _
      · exact ih _ (by rw [List.length_drop, hlen]; omega) _ rfl _

/-- The builder never returns `nullptr`. -/
theorem kdtreeRecursiveBuild_isNull (points : List (Point K)) (point_indices : List Nat)
    (axis leaf_size : Int) :
    (kdtreeRecursiveBuild points point_indices axis leaf_size).isNull = false := by
  by_cases hl : point_indices.length ≤ sizeT leaf_size
  · rw [kdtreeRecursiveBuild_leaf points point_indices axis leaf_size hl]; rfl
  · rw [kdtreeRecursiveBuild_split points point_indices axis leaf_size (Nat.lt_of_not_le hl)]
    rfl

theorem Node.leafLists_leaf {E : Type} (axis : Int) (value : E) (point_indices : List Nat) :
    (Node.mk axis value Node.null Node.null point_indices).leafLists = [point_indices] := rfl

theorem Node.leafLists_inner {E : Type} (axis : Int) (value : E) {left right : Node E}
    (point_indices : List Nat) (h : left.isNull = false) :
    (Node.mk axis value left right point_indices).leafLists =
      left.leafLists ++ right.leafLists := by
  simp [Node.leafLists, h]

theorem Node.leafIndices_inner {E : Type} (axis : Int) (value : E) {left right : Node E}
    (point_indices : List Nat) (h : left.isNull = false) :
    (Node.mk axis value left right point_indices).leafIndices =
      left.leafIndices ++ right.leafIndices := by
  unfold Node.leafIndices
  rw [Node.leafLists_inner axis value point_indices h, List.flatten_append]

theorem Node.internalCount_inner {E : Type} (axis : Int) (value : E) {left right : Node E}
    (point_indices : List Nat) (h : left.isNull = false) :
    (Node.mk axis value left right point_indices).internalCount =
      1 + left.internalCount + right.internalCount := by
  simp [Node.internalCount, h]

/-- A list splits around each of its positions. -/
theorem split_at_position {l : List Nat} {m : Nat} (h : m < l.length) :
    l = l.take m ++ l.getD m 0 :: l.drop (m + 1) := by
  rw [List.getD_eq_getElem l 0 h, ← List.drop_eq_getElem_cons h, List.take_append_drop]

/-- The indices of the input are the indices stored in the leaves together with one
dropped index for each internal node. -/
theorem build_leafIndices_perm (points : List (Point K)) (leaf_size : Int)
    (point_indices : List Nat) (axis : Int) :
    ∃ dropped : List Nat,
      ((kdtreeRecursiveBuild points point_indices axis leaf_size).leafIndices ++
        dropped).Perm point_indices ∧
      dropped.length =
        (kdtreeRecursiveBuild points point_indices axis leaf_size).internalCount := by
  apply kdtreeRecursiveBuild_induction points leaf_size
    (fun point_indices _ node => ∃ dropped : List Nat,
      (node.leafIndices ++ dropped).Perm point_indices ∧
      dropped.length = node.internalCount)
  · intro point_indices axis _
    refine ⟨[], ?_, rfl⟩
    simp [Node.leafIndices, Node.leafLists_leaf]
  · intro point_indices axis hl ⟨dl, hpl, hcl⟩ ⟨dr, hpr, hcr⟩
    have hnl := kdtreeRecursiveBuild_isNull points
      ((sortIndices points axis point_indices).take (point_indices.length / 2))
      ((axis + 1).tmod 2) leaf_size
    have hm : point_indices.length / 2 < (sortIndices points axis point_indices).length := by
      rw [sortIndices_length]; omega
    refine ⟨(sortIndices points axis point_indices).getD (point_indices.length / 2) 0 ::
      (dl ++ dr), ?_, ?_⟩
    · rw [Node.leafIndices_inner _ _ _ hnl]
      refine List.Perm.trans ?_ (sortIndices_perm points axis point_indices)
      refine List.Perm.trans ?_ (List.Perm.of_eq (split_at_position hm).symm)
      refine List.Perm.trans ?_ (List.Perm.append hpl (List.Perm.cons _ hpr))
      generalize (kdtreeRecursiveBuild points
        ((sortIndices points axis point_indices).take (point_indices.length / 2))
        ((axis + 1).tmod 2) leaf_size).leafIndices = a
      generalize (kdtreeRecursiveBuild points
        ((sortIndices points axis point_indices).drop (point_indices.length / 2 + 1))
        ((axis + 1).tmod 2) leaf_size).leafIndices = b
      generalize (sortIndices points axis point_indices).getD (point_indices.length / 2) 0 = c
      have e1 : a ++ b ++ c :: (dl ++ dr) = a ++ (b ++ c :: dl) ++ dr := by simp
      have e2 : a ++ dl ++ c :: (b ++ dr) = a ++ (dl ++ c :: b) ++ dr := by simp
      rw [e1, e2]
      refine List.Perm.append_right _ (List.Perm.append_left _ ?_)
      exact (@List.perm_append_comm _ b (c :: dl)).trans
        (List.Perm.trans (List.Perm.of_eq (List.cons_append c dl b))
          (@List.perm_middle _ c dl b).symm)
    · rw [Node.internalCount_inner _ _ _ hnl, List.length_cons, List.length_append, hcl, hcr]
      omega

theorem build_leafIndices_subset (points : List (Point K)) (leaf_size : Int)
    (point_indices : List Nat) (axis : Int) {i : Nat}
    (h : i ∈ (kdtreeRecursiveBuild points point_indices axis leaf_size).leafIndices) :
    i ∈ point_indices := by
  obtain ⟨dropped, hp, _⟩ := build_leafIndices_perm points leaf_size point_indices axis
  exact hp.subset (List.mem_append_left _ h)

/-- Every tree of the builder separates the stored indices around each split value. -/
theorem build_weakSplit (points : List (Point K)) (leaf_size : Int)
    (point_indices : List Nat) (axis : Int) :
    (kdtreeRecursiveBuild points point_indices axis leaf_size).weakSplit points := by
  apply kdtreeRecursiveBuild_induction points leaf_size (fun _ _ node => node.weakSplit points)
  · intro point_indices axis _
    simp [Node.weakSplit, Node.leafIndices, Node.leafLists]
  · intro point_indices axis hl ihl ihr
    have hm : point_indices.length / 2 < (sortIndices points axis point_indices).length := by
      rw [sortIndices_length]; omega
    have hs := sortIndices_sorted points axis point_indices
    rw [split_at_position hm] at hs
    have hs2 := List.pairwise_append.mp hs
    refine ⟨?_, ?_, ihl, ihr⟩
    · intro i hi
      exact hs2.2.2 i (build_leafIndices_subset points leaf_size _ _ hi) _
        (List.mem_cons_self _ _)
    · intro i hi
      exact List.rel_of_sorted_cons hs2.2.1 i
        (build_leafIndices_subset points leaf_size _ _ hi)

theorem Node.eq_null_of_isNull {E : Type} {node : Node E} (h : node.isNull = true) :
    node = Node.null := by
  cases node with
  | null => rfl
  | mk _ _ _ _ _ => cases h

/-- Every tree of the builder has the shape of leaves and internal nodes. -/
theorem build_shaped (points : List (Point K)) (leaf_size : Int)
    (point_indices : List Nat) (axis : Int) :
    (kdtreeRecursiveBuild points point_indices axis leaf_size).shaped (sizeT leaf_size) := by
  apply kdtreeRecursiveBuild_induction points leaf_size
    (fun _ _ node => node.shaped (sizeT leaf_size))
  · intro point_indices axis hl
    exact Or.inl ⟨rfl, rfl, hl⟩
  · intro point_indices axis _ ihl ihr
    exact Or.inr ⟨kdtreeRecursiveBuild_isNull points _ _ leaf_size,
      kdtreeRecursiveBuild_isNull points _ _ leaf_size, rfl, ihl, ihr⟩

/-- A subtree of the builder was built from as many indices as `inputCount` counts. -/
theorem build_inputCount (points : List (Point K)) (leaf_size : Int)
    (point_indices : List Nat) (axis : Int) :
    (kdtreeRecursiveBuild points point_indices axis leaf_size).inputCount =
      point_indices.length := by
  obtain ⟨dropped, hp, hc⟩ := build_leafIndices_perm points leaf_size point_indices axis
  have := hp.length_eq
  rw [List.length_append] at this
  unfold Node.inputCount
  omega

theorem Node.height_leaf {E : Type} (axis : Int) (value : E) (point_indices : List Nat) :
    (Node.mk axis value Node.null Node.null point_indices).height = 0 := rfl

theorem Node.height_inner {E : Type} (axis : Int) (value : E) {left right : Node E}
    (point_indices : List Nat) (h : left.isNull = false) :
    (Node.mk axis value left right point_indices).height =
      1 + max left.height right.height := by
  simp [Node.height, h]

/-- With a leaf size of at least 1 the height is logarithmic in the number of indices. -/
theorem build_height (points : List (Point K)) (leaf_size : Int) (h1 : 1 ≤ sizeT leaf_size)
    (point_indices : List Nat) (axis : Int) :
    2 ^ (kdtreeRecursiveBuild points point_indices axis leaf_size).height ≤
      max point_indices.length 1 := by
  apply kdtreeRecursiveBuild_induction points leaf_size
    (fun point_indices _ node => 2 ^ node.height ≤ max point_indices.length 1)
  · intro point_indices axis _
    rw [Node.height_leaf, pow_zero]
    exact le_max_right _ _
  · intro point_indices axis hl ihl ihr
    have hnl := kdtreeRecursiveBuild_isNull points
      ((sortIndices points axis point_indices).take (point_indices.length / 2))
      ((axis + 1).tmod 2) leaf_size
    have hlen := sortIndices_length points axis point_indices
    rw [List.length_take, hlen] at ihl
    rw [List.length_drop, hlen] at ihr
    rw [Node.height_inner _ _ _ hnl]
    rcases le_total
      (kdtreeRecursiveBuild points
        ((sortIndices points axis point_indices).take (point_indices.length / 2))
        ((axis + 1).tmod 2) leaf_size).height
      (kdtreeRecursiveBuild points
        ((sortIndices points axis point_indices).drop (point_indices.length / 2 + 1))
        ((axis + 1).tmod 2) leaf_size).height with hle | hle
    · rw [max_eq_right hle, pow_add, pow_one]
      omega
    · rw [max_eq_left hle, pow_add, pow_one]
      omega

/-- Every tree of the builder is balanced. -/
theorem build_balanced (points : List (Point K)) (leaf_size : Int)
    (point_indices : List Nat) (axis : Int) :
    (kdtreeRecursiveBuild points point_indices axis leaf_size).balanced := by
  apply kdtreeRecursiveBuild_induction points leaf_size (fun _ _ node => node.balanced)
  · intro point_indices axis _
    exact Or.inl rfl
  · intro point_indices axis hl ihl ihr
    have hlen := sortIndices_length points axis point_indices
    refine Or.inr ⟨?_, ?_, ihl, ihr⟩
    · rw [build_inputCount, build_inputCount, List.length_take, List.length_drop, hlen]
      omega
    · rw [build_inputCount, build_inputCount, List.length_take, List.length_drop, hlen]
      omega

end Build

/-! ## The search -/

section Search

variable {K : Type} [LinearOrderedCommRing K]

/-- The candidates that the loop over a leaf offers, in order. -/
theorem searchLeaf_eq_addPoints (points : List (Point K)) (query : Point K)
    (point_indices : List Nat) (rs : ResultSet (Dist K)) :
    searchLeaf points query point_indices rs =
      rs.addPoints (point_indices.map
        (fun idx => (calculateDistance (points.getD idx default) query, idx))) := by
  unfold searchLeaf ResultSet.addPoints
  rw [List.foldl_map]

/-- A search changes the accumulator only through `addPoint` calls. -/
theorem knnSearch_eq_addPoints (points : List (Point K)) (query : Point K) (node : Node K)
    (rs : ResultSet (Dist K)) :
    ∃ calls : List (Dist K × Nat), knnSearch points query node rs = rs.addPoints calls := by
  induction node generalizing rs with
  | null => exact ⟨[], rfl⟩
  | mk axis value left right point_indices ihl ihr =>
    unfold knnSearch
    by_cases hp : point_indices ≠ []
    · rw [if_pos hp]
      exact ⟨_, searchLeaf_eq_addPoints points query point_indices rs⟩
    · rw [if_neg hp]
      simp only []
      generalize (if axis = 0 then query.x else query.y) = query_value
      by_cases hq : query_value ≤ value
      · rw [if_pos hq]
        obtain ⟨c1, h1⟩ := ihl rs
        obtain ⟨c2, h2⟩ := ihr (knnSearch points query left rs)
        by_cases hw : ((Dist.abs (query_value - value) : Dist K) : WithTop (Dist K)) <
            (knnSearch points query left rs).worstDist
        · rw [if_pos hw]
          exact ⟨c1 ++ c2, by rw [h2, h1, ResultSet.addPoints_append]⟩
        · rw [if_neg hw]
          exact ⟨c1, h1⟩
      · rw [if_neg hq]
        obtain ⟨c1, h1⟩ := ihr rs
        obtain ⟨c2, h2⟩ := ihl (knnSearch points query right rs)
        by_cases hw : ((Dist.abs (query_value - value) : Dist K) : WithTop (Dist K)) <
            (knnSearch points query right rs).worstDist
        · rw [if_pos hw]
          exact ⟨c1 ++ c2, by rw [h2, h1, ResultSet.addPoints_append]⟩
        · rw [if_neg hw]
          exact ⟨c1, h1⟩

theorem knnSearch_null (points : List (Point K)) (query : Point K)
    (rs : ResultSet (Dist K)) : knnSearch points query Node.null rs = rs := rfl

/-- The body of `knnSearch` at an allocated node, with the names of the source. -/
theorem knnSearch_mk (points : List (Point K)) (query : Point K) (axis : Int) (value : K)
    (left right : Node K) (point_indices : List Nat) (rs : ResultSet (Dist K)) :
    knnSearch points query (Node.mk axis value left right point_indices) rs =
      if point_indices ≠ [] then searchLeaf points query point_indices rs
      else if ((Dist.abs (queryValue axis query - value) : Dist K) : WithTop (Dist K)) <
          (knnSearch points query (nearSubtree query axis value left right) rs).worstDist then
        knnSearch points query (farSubtree query axis value left right)
          (knnSearch points query (nearSubtree query axis value left right) rs)
      else knnSearch points query (nearSubtree query axis value left right) rs := by
  rw [knnSearch]
  unfold nearSubtree farSubtree queryValue
  by_cases hp : point_indices ≠ []
  · rw [if_pos hp, if_pos hp]
  · rw [if_neg hp, if_neg hp]
    by_cases hq : (if axis = 0 then query.x else query.y) ≤ value
    · simp only [hq, if_true]
    · simp only [hq, if_false]

/-- The near and the far subtree are the two children, in one of the two orders. -/
theorem near_far_cases (query : Point K) (axis : Int) (value : K) (left right : Node K) :
    (nearSubtree query axis value left right = left ∧
      farSubtree query axis value left right = right ∧ queryValue axis query ≤ value) ∨
    (nearSubtree query axis value left right = right ∧
      farSubtree query axis value left right = left ∧ value < queryValue axis query) := by
  unfold nearSubtree farSubtree
  by_cases hq : queryValue axis query ≤ value
  · exact Or.inl ⟨if_pos hq, if_pos hq, hq⟩
  · exact Or.inr ⟨if_neg hq, if_neg hq, not_le.mp hq⟩

/-- On a tree of the builder's shape a search offers only indices stored in the leaves,
each with its distance to the query, and at most one offer per stored index. -/
theorem knnSearch_calls (points : List (Point K)) (query : Point K) (cap : Nat) :
    ∀ node : Node K, node.shaped cap → ∀ rs : ResultSet (Dist K),
      ∃ calls : List (Dist K × Nat), knnSearch points query node rs = rs.addPoints calls ∧
        (∀ c ∈ calls, c.2 ∈ node.leafIndices ∧ c.1 = distanceTo points query c.2) ∧
        calls.length ≤ node.leafIndices.length := by
  intro node
  induction node with
  | null => intro _ rs; exact ⟨[], rfl, (by intro c hc; cases hc), le_refl _⟩
  | mk axis value left right point_indices ihl ihr =>
    intro hs rs
    rw [knnSearch_mk]
    rcases hs with ⟨hl, hr, _⟩ | ⟨hl, hr, hi, hsl, hsr⟩
    · have el := Node.eq_null_of_isNull hl
      have er := Node.eq_null_of_isNull hr
      subst el er
      have hleaf : (Node.mk axis value Node.null Node.null point_indices).leafIndices =
          point_indices := by
        simp [Node.leafIndices, Node.leafLists_leaf]
      rw [hleaf]
      by_cases hp : point_indices ≠ []
      · rw [if_pos hp]
        refine ⟨_, searchLeaf_eq_addPoints points query point_indices rs, ?_, ?_⟩
        · intro c hc
          obtain ⟨i, hi, rfl⟩ := List.mem_map.mp hc
          exact ⟨hi, rfl⟩
        · rw [List.length_map]
      · rw [if_neg hp]
        have hn : nearSubtree query axis value (Node.null : Node K) Node.null = Node.null := by
          unfold nearSubtree; split <;> rfl
        have hf : farSubtree query axis value (Node.null : Node K) Node.null = Node.null := by
          unfold farSubtree; split <;> rfl
        rw [hn, hf]
        simp only [knnSearch_null, ite_self]
        exact ⟨[], rfl, (by intro c hc; cases hc), Nat.zero_le _⟩
    · subst hi
      rw [if_neg (by simp), Node.leafIndices_inner _ _ _ hl]
      have key : ∀ near far : Node K,
          (∀ rs, ∃ calls : List (Dist K × Nat),
            knnSearch points query near rs = rs.addPoints calls ∧
            (∀ c ∈ calls, c.2 ∈ near.leafIndices ∧ c.1 = distanceTo points query c.2) ∧
            calls.length ≤ near.leafIndices.length) →
          (∀ rs, ∃ calls : List (Dist K × Nat),
            knnSearch points query far rs = rs.addPoints calls ∧
            (∀ c ∈ calls, c.2 ∈ far.leafIndices ∧ c.1 = distanceTo points query c.2) ∧
            calls.length ≤ far.leafIndices.length) →
          ∃ calls : List (Dist K × Nat),
            (if ((Dist.abs (queryValue axis query - value) : Dist K) : WithTop (Dist K)) <
                (knnSearch points query near rs).worstDist then
              knnSearch points query far (knnSearch points query near rs)
            else knnSearch points query near rs) = rs.addPoints calls ∧
            (∀ c ∈ calls, (c.2 ∈ near.leafIndices ∨ c.2 ∈ far.leafIndices) ∧
              c.1 = distanceTo points query c.2) ∧
            calls.length ≤ near.leafIndices.length + far.leafIndices.length := by
        intro near far hnear hfar
        obtain ⟨c1, e1, m1, l1⟩ := hnear rs
        obtain ⟨c2, e2, m2, l2⟩ := hfar (knnSearch points query near rs)
        split
        · refine ⟨c1 ++ c2, by rw [e2, e1, ResultSet.addPoints_append], ?_, ?_⟩
          · intro c hc
            rcases List.mem_append.mp hc with h | h
            · exact ⟨Or.inl (m1 c h).1, (m1 c h).2⟩
            · exact ⟨Or.inr (m2 c h).1, (m2 c h).2⟩
          · rw [List.length_append]; omega
        · refine ⟨c1, e1, ?_, by omega⟩
          intro c hc
          exact ⟨Or.inl (m1 c hc).1, (m1 c hc).2⟩
      rcases near_far_cases query axis value left right with ⟨hn, hf, _⟩ | ⟨hn, hf, _⟩
      · rw [hn, hf]
        obtain ⟨calls, e, m, l⟩ := key left right (ihl hsl) (ihr hsr)
        refine ⟨calls, e, ?_, by rw [List.length_append]; exact l⟩
        intro c hc
        exact ⟨List.mem_append.mpr (m c hc).1, (m c hc).2⟩
      · rw [hn, hf]
        obtain ⟨calls, e, m, l⟩ := key right left (ihr hsr) (ihl hsl)
        refine ⟨calls, e, ?_, by rw [List.length_append]; omega⟩
        intro c hc
        exact ⟨List.mem_append.mpr (m c hc).1.symm, (m c hc).2⟩

theorem Dist.le_iff (a b : Dist K) : a ≤ b ↔ a.sq ≤ b.sq := Iff.rfl

/-- The distance to a point is at least the distance to a plane that separates it from the
query. -/
theorem plane_le_distance (points : List (Point K)) (query : Point K) (axis : Int)
    (value : K) (i : Nat)
    (h : (queryValue axis query ≤ value ∧ value ≤ coord points axis i) ∨
      (value ≤ queryValue axis query ∧ coord points axis i ≤ value)) :
    Dist.abs (queryValue axis query - value) ≤ distanceTo points query i := by
  rw [Dist.le_iff]
  unfold Dist.abs distanceTo calculateDistance Dist.sqrt
  unfold queryValue coord at *
  simp only []
  by_cases h0 : axis = 0
  · simp only [h0, if_true] at h ⊢
    rcases h with ⟨h1, h2⟩ | ⟨h1, h2⟩
    · nlinarith [sq_nonneg ((points.getD i default).y - query.y)]
    · nlinarith [sq_nonneg ((points.getD i default).y - query.y)]
  · simp only [h0, if_false] at h ⊢
    rcases h with ⟨h1, h2⟩ | ⟨h1, h2⟩
    · nlinarith [sq_nonneg ((points.getD i default).x - query.x)]
    · nlinarith [sq_nonneg ((points.getD i default).x - query.x)]

/-- The split invariant gives the lower bound for the far child at every node. -/
theorem farBound_of_weakSplit (points : List (Point K)) (query : Point K) :
    ∀ node : Node K, node.weakSplit points → node.farBound points query := by
  intro node
  induction node with
  | null => intro _; trivial
  | mk axis value left right point_indices ihl ihr =>
    intro hs
    obtain ⟨hl, hr, hsl, hsr⟩ := hs
    refine ⟨?_, ihl hsl, ihr hsr⟩
    intro i hi
    apply plane_le_distance
    rcases near_far_cases query axis value left right with ⟨_, hf, hq⟩ | ⟨_, hf, hq⟩
    · rw [hf] at hi
      exact Or.inl ⟨hq, hr i hi⟩
    · rw [hf] at hi
      exact Or.inr ⟨le_of_lt hq, hl i hi⟩

/-- The lower bound makes the pruning test safe with respect to `worstDist()`. -/
theorem skipSafe_of_farBound (points : List (Point K)) (query : Point K) :
    ∀ node : Node K, node.farBound points query → node.skipSafe points query := by
  intro node
  induction node with
  | null => intro _; trivial
  | mk axis value left right point_indices ihl ihr =>
    intro hb
    obtain ⟨hfar, hbl, hbr⟩ := hb
    refine ⟨?_, ihl hbl, ihr hbr⟩
    intro rs hw i hi
    exact le_trans (not_lt.mp hw) (WithTop.coe_le_coe.mpr (hfar i hi))

/-- A search on a tree of the builder's shape keeps every seen index covered. -/
theorem knnSearch_near (points : List (Point K)) (query : Point K) (cap : Nat)
    (node : Node K) (hs : node.shaped cap) (rs : ResultSet (Dist K))
    (hn : rs.Near (distanceTo points query)) :
    (knnSearch points query node rs).Near (distanceTo points query) := by
  obtain ⟨calls, e, m, _⟩ := knnSearch_calls points query cap node hs rs
  rw [e]
  exact hn.after_addPoints calls (fun c hc => (m c hc).2)

/-- A search covers every stored index: after it, for every index stored in a leaf, some
retained candidate is at most as far from the query as that index.  Indices below a skipped
far child are covered by the top candidate. -/
theorem knnSearch_covers (points : List (Point K)) (query : Point K) (cap : Nat) :
    ∀ node : Node K, node.shaped cap → node.farBound points query →
      ∀ rs : ResultSet (Dist K), rs.Near (distanceTo points query) →
        ∀ i ∈ node.leafIndices,
          ∃ n ∈ (knnSearch points query node rs).result_set,
            n.distance ≤ distanceTo points query i := by
  intro node
  induction node with
  | null =>
    intro _ _ rs _ i hi
    simp [Node.leafIndices, Node.leafLists] at hi
  | mk axis value left right point_indices ihl ihr =>
    intro hs hb rs hnear i hi
    have hres := knnSearch_near points query cap _ hs rs hnear
    rw [knnSearch_mk] at hres ⊢
    obtain ⟨hfar, hbl, hbr⟩ := hb
    rcases hs with ⟨hl, hr, _⟩ | ⟨hl, hr, hidx, hsl, hsr⟩
    · have el := Node.eq_null_of_isNull hl
      have er := Node.eq_null_of_isNull hr
      subst el er
      have hleaf : (Node.mk axis value Node.null Node.null point_indices).leafIndices =
          point_indices := by
        simp [Node.leafIndices, Node.leafLists_leaf]
      rw [hleaf] at hi
      have hp : point_indices ≠ [] := List.ne_nil_of_mem hi
      rw [if_pos hp] at hres ⊢
      apply hres i
      rw [searchLeaf_eq_addPoints, ResultSet.mem_visited_addPoints]
      right
      rw [List.map_map]
      exact List.mem_map.mpr ⟨i, hi, rfl⟩
    · subst hidx
      rw [Node.leafIndices_inner _ _ _ hl] at hi
      rw [if_neg (by simp)] at hres ⊢
      have key : ∀ near far : Node K, near.shaped cap → far.shaped cap →
          (∀ rs : ResultSet (Dist K), rs.Near (distanceTo points query) →
            ∀ i ∈ near.leafIndices, ∃ n ∈ (knnSearch points query near rs).result_set,
              n.distance ≤ distanceTo points query i) →
          (∀ rs : ResultSet (Dist K), rs.Near (distanceTo points query) →
            ∀ i ∈ far.leafIndices, ∃ n ∈ (knnSearch points query far rs).result_set,
              n.distance ≤ distanceTo points query i) →
          (∀ i ∈ far.leafIndices,
            Dist.abs (queryValue axis query - value) ≤ distanceTo points query i) →
          (i ∈ near.leafIndices ∨ i ∈ far.leafIndices) →
          ∃ n ∈ (if ((Dist.abs (queryValue axis query - value) : Dist K) :
                WithTop (Dist K)) < (knnSearch points query near rs).worstDist then
              knnSearch points query far (knnSearch points query near rs)
            else knnSearch points query near rs).result_set,
            n.distance ≤ distanceTo points query i := by
        intro near far hsn hsf ihn ihf hplane hmem
        have hn1 := knnSearch_near points query cap near hsn rs hnear
        by_cases hw : ((Dist.abs (queryValue axis query - value) : Dist K) :
            WithTop (Dist K)) < (knnSearch points query near rs).worstDist
        · rw [if_pos hw]
          rcases hmem with hin | hif
          · obtain ⟨calls, e, _, _⟩ :=
              knnSearch_calls points query cap far hsf (knnSearch points query near rs)
            rw [e]
            exact ResultSet.addPoints_keeps_bound _ calls (ihn rs hnear i hin)
          · exact ihf _ hn1 i hif
        · rw [if_neg hw]
          rcases hmem with hin | hif
          · exact ihn rs hnear i hin
          · obtain ⟨n, hn, hle⟩ := ResultSet.exists_of_worstDist_le _ (not_lt.mp hw)
            exact ⟨n, hn, le_trans hle (hplane i hif)⟩
      rcases near_far_cases query axis value left right with ⟨hn, hf, _⟩ | ⟨hn, hf, _⟩
      · rw [hf] at hfar
        rw [hn, hf]
        exact key left right hsl hsr (fun rs h => ihl hsl hbl rs h)
          (fun rs h => ihr hsr hbr rs h) hfar (List.mem_append.mp hi)
      · rw [hf] at hfar
        rw [hn, hf]
        exact key right left hsr hsl (fun rs h => ihr hsr hbr rs h)
          (fun rs h => ihl hsl hbl rs h) hfar (List.mem_append.mp hi).symm

end Search

/-! ## The claims -/

section Claims

variable {D : Type} [LinearOrder D]

/-- C1 fails on the run of `main` (nine points, leaf size 1, query `(6, 4)`, `k = 3`): the
search retains the distances `sqrt 50, sqrt 17, sqrt 13, sqrt 5`, while the four smallest
distances of the full scan are `sqrt 1, sqrt 1, sqrt 5, sqrt 13`; the worst retained
distance `sqrt 50` exceeds the fourth nearest true distance `sqrt 13`. -/
theorem demo_search_differs_from_full_scan :
    demoTree.leafIndices = [0, 7, 5, 2] ∧
    demoResult.result_set.map Neighbor.distance =
      [Dist.sqrt 50, Dist.sqrt 17, Dist.sqrt 13, Dist.sqrt 5] ∧
    (bruteForce demoPoints ⟨6, 4⟩).take (min (3 + 1) demoPoints.length) =
      [Dist.sqrt 1, Dist.sqrt 1, Dist.sqrt 5, Dist.sqrt 13] ∧
    demoResult.worstDist = ((Dist.sqrt 50 : Dist Int) : WithTop (Dist Int)) ∧
    ¬ (demoResult.worstDist ≤ ((Dist.sqrt 13 : Dist Int) : WithTop (Dist Int))) := by
  decide

/-- C2 fails on six points with leaf size 1, query `(3, 6)` and `k = 2`: the leaves store
the indices `3, 2, 1`, the search retains only the indices `1` and `2`, fewer than
`min (k+1) 3 = 3`, and the stored index `3`, which is not retained, has the distance
`sqrt 34`, less than the worst retained distance `sqrt 45`. -/
theorem pruning_loses_nearer_stored_point :
    pruneTree.leafIndices = [3, 2, 1] ∧
    pruneResult.result_set = [⟨Dist.sqrt 45, 1⟩, ⟨Dist.sqrt 13, 2⟩] ∧
    pruneResult.result_set.length < min (2 + 1) pruneTree.leafIndices.length ∧
    calculateDistance (prunePoints.getD 3 default) ⟨3, 6⟩ = Dist.sqrt 34 ∧
    ((Dist.sqrt 34 : Dist Int) : WithTop (Dist Int)) < pruneResult.worstDist := by
  decide

/-- C5: for every `k >= 0` and every sequence of candidates with pairwise distinct indices
offered in that order to a fresh `ResultSet(k)`, the multiset of retained distances is the
multiset of the `min (n, k+1)` smallest offered distances, and it does not depend on the
order of the offers. -/
theorem accumulator_tracks_best_k_plus_one (k : Nat) (hk : k < 2 ^ 31)
    (calls : List (D × Nat)) (hd : (calls.map Prod.snd).Nodup) :
    ((((ResultSet.fresh (k : Int)).addPoints calls).result_set.map Neighbor.distance :
        List D) : Multiset D) =
      ((((calls.map Prod.fst).insertionSort (· ≤ ·)).take (min calls.length (k + 1)) :
        List D) : Multiset D) ∧
    ∀ reordered : List (D × Nat), reordered.Perm calls →
      ((((ResultSet.fresh (k : Int)).addPoints reordered).result_set.map Neighbor.distance :
        List D) : Multiset D) =
      ((((ResultSet.fresh (k : Int)).addPoints calls).result_set.map Neighbor.distance :
        List D) : Multiset D) := by
  have main := ResultSet.retained_perm_take k hk calls hd
  refine ⟨Multiset.coe_eq_coe.mpr main, ?_⟩
  intro reordered hp
  have hd2 : (reordered.map Prod.snd).Nodup := (hp.map Prod.snd).nodup_iff.mpr hd
  have h2 := ResultSet.retained_perm_take k hk reordered hd2
  have hsort : (reordered.map Prod.fst).insertionSort (· ≤ ·) =
      (calls.map Prod.fst).insertionSort (· ≤ ·) :=
    List.eq_of_perm_of_sorted
      (((List.perm_insertionSort _ _).trans (hp.map Prod.fst)).trans
        (List.perm_insertionSort _ _).symm)
      (List.sorted_insertionSort _ _) (List.sorted_insertionSort _ _)
  rw [hsort, hp.length_eq] at h2
  exact Multiset.coe_eq_coe.mpr (h2.trans main.symm)

/-- Instance of C5: `k = 1` and the offers `(5,0), (3,1), (4,2)`. -/
theorem accumulator_tracks_best_k_plus_one_witness :
    ((1 : Nat) < 2 ^ 31 ∧ (([((5 : Nat), 0), (3, 1), (4, 2)] : List (Nat × Nat)).map
      Prod.snd).Nodup) ∧
    ((((ResultSet.fresh ((1 : Nat) : Int)).addPoints
        [((5 : Nat), 0), (3, 1), (4, 2)]).result_set.map Neighbor.distance : List Nat) :
        Multiset Nat) =
      (((([((5 : Nat), 0), (3, 1), (4, 2)] : List (Nat × Nat)).map Prod.fst).insertionSort
        (· ≤ ·)).take (min ([((5 : Nat), 0), (3, 1), (4, 2)] : List (Nat × Nat)).length
          (1 + 1)) : List Nat) :=
  ⟨⟨by decide, by decide⟩,
    (accumulator_tracks_best_k_plus_one 1 (by decide) [((5 : Nat), 0), (3, 1), (4, 2)]
      (by decide)).1⟩

/-- C6: in every state reachable from a fresh `ResultSet(k)` with `k >= 0` the number of
retained candidates is at most `k + 1`; it is the number of distinct indices offered so far,
capped at `k + 1`, so it reaches `k + 1` as soon as `k + 1` distinct indices have been
offered; and every query result, as held and as printed, has length at most `k + 1`. -/
theorem accumulator_size_bound {K : Type} [LinearOrderedCommRing K] (k : Nat)
    (hk : k < 2 ^ 31) (calls : List (D × Nat)) (points : List (Point K)) (query : Point K)
    (node : Node K) :
    ((ResultSet.fresh (k : Int)).addPoints calls).result_set.length ≤ k + 1 ∧
    ((ResultSet.fresh (k : Int)).addPoints calls).result_set.length =
      min (calls.map Prod.snd).toFinset.card (k + 1) ∧
    (knnSearch points query node (ResultSet.fresh (k : Int))).result_set.length ≤ k + 1 ∧
    ((knnSearch points query node (ResultSet.fresh (k : Int))).printResults points).length
      ≤ k + 1 := by
  have bound : ∀ {E : Type} [LinearOrder E] (cs : List (E × Nat)),
      ((ResultSet.fresh (k : Int)).addPoints cs).result_set.length =
        min (cs.map Prod.snd).toFinset.card (k + 1) := by
    intro E _ cs
    have hi : ((ResultSet.fresh (k : Int) : ResultSet E).addPoints cs).Inv :=
      (ResultSet.inv_fresh _).addPoints cs
    have hlen := hi.length_eq
    rw [ResultSet.visited_length, ResultSet.addPoints_k, ResultSet.fresh_k,
      sizeT_natCast k hk] at hlen
    exact hlen
  obtain ⟨cs, hcs⟩ := knnSearch_eq_addPoints points query node (ResultSet.fresh (k : Int))
  have h1 := bound calls
  have h2 := bound cs
  rw [← hcs] at h2
  refine ⟨by omega, h1, by omega, ?_⟩
  exact le_trans (printLoop_length_le points _ []) (by omega)

/-- Instance of C6: `k = 1`, the offers `(5,0), (3,1), (4,2)` and the query of `main`. -/
theorem accumulator_size_bound_witness :
    (1 : Nat) < 2 ^ 31 ∧
    (((ResultSet.fresh ((1 : Nat) : Int)).addPoints
        ([(5, 0), (3, 1), (4, 2)] : List (Nat × Nat))).result_set.length ≤ 1 + 1 ∧
    ((ResultSet.fresh ((1 : Nat) : Int)).addPoints
        ([(5, 0), (3, 1), (4, 2)] : List (Nat × Nat))).result_set.length =
      min (([(5, 0), (3, 1), (4, 2)] : List (Nat × Nat)).map Prod.snd).toFinset.card (1 + 1) ∧
    (knnSearch demoPoints ⟨6, 4⟩ demoTree (ResultSet.fresh ((1 : Nat) : Int))).result_set.length
      ≤ 1 + 1 ∧
    ((knnSearch demoPoints ⟨6, 4⟩ demoTree (ResultSet.fresh ((1 : Nat) : Int))).printResults
      demoPoints).length ≤ 1 + 1) :=
  ⟨by decide, accumulator_size_bound 1 (by decide) [(5, 0), (3, 1), (4, 2)] demoPoints ⟨6, 4⟩
    demoTree⟩

/-- C7: in every state reachable from a fresh `ResultSet(k)`, once an index `i` has been
offered (in particular once it was accepted), a later `addPoint(d2, i)` with any distance
leaves the whole state unchanged, hence also the retained candidates, the seen-index set
and `worstDist`; and every retained candidate carries the first distance offered for its
index. -/
theorem addPoint_idempotent_per_index (k : Int) (calls : List (D × Nat)) (d : D) (i : Nat)
    (h : (d, i) ∈ calls) (d2 : D) :
    ((ResultSet.fresh k).addPoints calls).addPoint d2 i = (ResultSet.fresh k).addPoints calls ∧
    (((ResultSet.fresh k).addPoints calls).addPoint d2 i).worstDist =
      ((ResultSet.fresh k).addPoints calls).worstDist ∧
    ∀ n ∈ ((ResultSet.fresh k).addPoints calls).result_set,
      calls.find? (fun c => c.2 == n.index) = some (n.distance, n.index) := by
  have hseen : i ∈ ((ResultSet.fresh k : ResultSet D).addPoints calls).visited_points := by
    rw [ResultSet.mem_visited_addPoints]
    exact Or.inr (List.mem_map_of_mem Prod.snd h)
  have heq := ResultSet.addPoint_of_seen hseen d2
  exact ⟨heq, by rw [heq], ResultSet.retained_first_offer k calls⟩

/-- Instance of C7: after the offers `(5,0), (3,1)` to a fresh `ResultSet(1)`, index `0` is
offered again with the smaller distance `1`. -/
theorem addPoint_idempotent_per_index_witness :
    ((5, 0) : Nat × Nat) ∈ ([(5, 0), (3, 1)] : List (Nat × Nat)) ∧
    (((ResultSet.fresh 1).addPoints ([(5, 0), (3, 1)] : List (Nat × Nat))).addPoint 1 0 =
      (ResultSet.fresh 1).addPoints [(5, 0), (3, 1)] ∧
    (((ResultSet.fresh 1).addPoints ([(5, 0), (3, 1)] : List (Nat × Nat))).addPoint 1
      0).worstDist = ((ResultSet.fresh 1).addPoints [(5, 0), (3, 1)]).worstDist ∧
    ∀ n ∈ ((ResultSet.fresh 1).addPoints ([(5, 0), (3, 1)] : List (Nat × Nat))).result_set,
      ([(5, 0), (3, 1)] : List (Nat × Nat)).find? (fun c => c.2 == n.index) =
        some (n.distance, n.index)) :=
  ⟨by decide, addPoint_idempotent_per_index 1 [(5, 0), (3, 1)] 5 0 (by decide) 1⟩

/-- C8 fails on the run of `main`: the accumulator holds the distances `sqrt 50, sqrt 17,
sqrt 13, sqrt 5`, and `printResults` prints three lines, for the points `(2,3)`, `(9,6)`
and `(7,2)` at `sqrt 17`, `sqrt 13` and `sqrt 5`, in this order, so the printed sequence
is not sorted ascending by distance. -/
theorem printResults_demo_not_ascending :
    demoResult.result_set.map Neighbor.distance =
      [Dist.sqrt 50, Dist.sqrt 17, Dist.sqrt 13, Dist.sqrt 5] ∧
    demoResult.printResults demoPoints =
      [(⟨2, 3⟩, Dist.sqrt 17), (⟨9, 6⟩, Dist.sqrt 13), (⟨7, 2⟩, Dist.sqrt 5)] ∧
    ¬ ((demoResult.printResults demoPoints).map Prod.snd).Sorted (· ≤ ·) := by
  decide

/-- C8 as amended: for every reachable accumulator state the sequence of entries produced
by `printResults` is sorted descending by distance. -/
theorem printResults_descending {K : Type} [Zero K] (k : Int) (calls : List (D × Nat))
    (points : List (Point K)) :
    ((((ResultSet.fresh k).addPoints calls).printResults points).map Prod.snd).Sorted
      (· ≥ ·) := by
  have hi : ((ResultSet.fresh k : ResultSet D).addPoints calls).Inv :=
    (ResultSet.inv_fresh k).addPoints calls
  exact (sorted_distance_of_sorted hi.sorted).sublist (printLoop_sublist points _ [])

/-- C9: in every state reachable from a fresh `ResultSet(k)`, `worstDist()` is positive
infinity exactly when no candidate is retained; otherwise it is the distance of a retained
candidate and every retained candidate has a distance at most `worstDist()`, so it is the
maximum retained distance. -/
theorem worstDist_is_max_retained (k : Int) (calls : List (D × Nat)) :
    (((ResultSet.fresh k).addPoints calls).worstDist = ⊤ ↔
      ((ResultSet.fresh k).addPoints calls).result_set = []) ∧
    (∀ n ∈ ((ResultSet.fresh k).addPoints calls).result_set,
      (n.distance : WithTop D) ≤ ((ResultSet.fresh k).addPoints calls).worstDist) ∧
    (((ResultSet.fresh k).addPoints calls).result_set ≠ [] →
      ∃ n ∈ ((ResultSet.fresh k).addPoints calls).result_set,
        ((ResultSet.fresh k).addPoints calls).worstDist = (n.distance : WithTop D)) := by
  have hi : ((ResultSet.fresh k : ResultSet D).addPoints calls).Inv :=
    (ResultSet.inv_fresh k).addPoints calls
  have hs := hi.sorted
  generalize (ResultSet.fresh k : ResultSet D).addPoints calls = rs at hs
  refine ⟨ResultSet.worstDist_eq_top_iff rs, ?_, ?_⟩
  · intro n hn
    unfold ResultSet.worstDist
    cases hq : rs.result_set with
    | nil => exact le_top
    | cons top rest =>
      rw [hq] at hs hn
      exact WithTop.coe_le_coe.mpr (le_top_of_sorted hs hn)
  · intro hne
    unfold ResultSet.worstDist
    cases hq : rs.result_set with
    | nil => exact absurd hq hne
    | cons top rest => exact ⟨top, List.mem_cons_self _ _, rfl⟩

/-- C3: for every point list, every list of pairwise distinct indices and every leaf size,
the leaf index lists of the built tree are duplicate-free and pairwise disjoint, every leaf
index is an input index, and the number of input indices is the number of indices over all
leaves plus the number of internal nodes: the input is the leaf indices together with
exactly one dropped index per internal node. -/
theorem build_partition_complete {K : Type} [Zero K] [LinearOrder K] (points : List (Point K))
    (point_indices : List Nat) (axis leaf_size : Int) (hd : point_indices.Nodup) :
    (∀ l ∈ (kdtreeRecursiveBuild points point_indices axis leaf_size).leafLists, l.Nodup) ∧
    (kdtreeRecursiveBuild points point_indices axis leaf_size).leafLists.Pairwise
      List.Disjoint ∧
    (∀ l ∈ (kdtreeRecursiveBuild points point_indices axis leaf_size).leafLists,
      ∀ i ∈ l, i ∈ point_indices) ∧
    point_indices.length =
      (kdtreeRecursiveBuild points point_indices axis leaf_size).leafIndices.length +
        (kdtreeRecursiveBuild points point_indices axis leaf_size).internalCount ∧
    ∃ dropped : List Nat,
      ((kdtreeRecursiveBuild points point_indices axis leaf_size).leafIndices ++
        dropped).Perm point_indices ∧
      dropped.length =
        (kdtreeRecursiveBuild points point_indices axis leaf_size).internalCount := by
  obtain ⟨dropped, hp, hc⟩ := build_leafIndices_perm points leaf_size point_indices axis
  have hn : (kdtreeRecursiveBuild points point_indices axis leaf_size).leafIndices.Nodup :=
    (List.nodup_append.mp (hp.nodup_iff.mpr hd)).1
  have hn2 := List.nodup_flatten.mp hn
  refine ⟨hn2.1, hn2.2, ?_, ?_, dropped, hp, hc⟩
  · intro l hl i hi
    exact build_leafIndices_subset points leaf_size point_indices axis
      (List.mem_flatten_of_mem hl hi)
  · have := hp.length_eq
    rw [List.length_append] at this
    omega

/-- Instance of C3: the tree of `main`, with leaf lists `[0], [], [7], [5], [], [2]` and
five internal nodes. -/
theorem build_partition_complete_witness :
    (List.range 9).Nodup ∧
    ((∀ l ∈ (kdtreeRecursiveBuild demoPoints (List.range 9) 0 1).leafLists, l.Nodup) ∧
    (kdtreeRecursiveBuild demoPoints (List.range 9) 0 1).leafLists.Pairwise List.Disjoint ∧
    (∀ l ∈ (kdtreeRecursiveBuild demoPoints (List.range 9) 0 1).leafLists,
      ∀ i ∈ l, i ∈ List.range 9) ∧
    (List.range 9).length =
      (kdtreeRecursiveBuild demoPoints (List.range 9) 0 1).leafIndices.length +
        (kdtreeRecursiveBuild demoPoints (List.range 9) 0 1).internalCount ∧
    ∃ dropped : List Nat,
      ((kdtreeRecursiveBuild demoPoints (List.range 9) 0 1).leafIndices ++
        dropped).Perm (List.range 9) ∧
      dropped.length = (kdtreeRecursiveBuild demoPoints (List.range 9) 0 1).internalCount) :=
  ⟨by decide, build_partition_complete demoPoints (List.range 9) 0 1 (by decide)⟩

/-- C4 fails when coordinates tie: for three points with the same `x` coordinate `1` and
leaf size 1, the root splits at `1` and its right leaf stores index `2`, whose `x`
coordinate is `1`, not greater than the split value. -/
theorem build_strictSplit_fails_on_ties :
    kdtreeRecursiveBuild tiePoints [0, 1, 2] 0 1 =
      Node.mk 0 1 (Node.mk 1 0 Node.null Node.null [0]) (Node.mk 1 0 Node.null Node.null [2])
        [] ∧
    coord tiePoints 0 2 = 1 ∧
    ¬ (kdtreeRecursiveBuild tiePoints [0, 1, 2] 0 1).strictSplit tiePoints := by
  have e : kdtreeRecursiveBuild tiePoints [0, 1, 2] 0 1 =
      Node.mk 0 1 (Node.mk 1 0 Node.null Node.null [0])
        (Node.mk 1 0 Node.null Node.null [2]) [] := by decide
  refine ⟨e, by decide, ?_⟩
  rw [e]
  intro h
  have h2 : (1 : Int) < coord tiePoints 0 2 := h.2.1 2 (by decide)
  revert h2
  decide

/-- C4 as amended: in every tree produced by `kdtreeRecursiveBuild`, at every node, every
index stored in a leaf of the left subtree has a coordinate on the node's axis `<=` the
split value, and every index stored in a leaf of the right subtree has a coordinate on the
node's axis `>=` the split value. -/
theorem build_split_invariant {K : Type} [Zero K] [LinearOrder K] (points : List (Point K))
    (point_indices : List Nat) (axis leaf_size : Int) :
    (kdtreeRecursiveBuild points point_indices axis leaf_size).weakSplit points :=
  build_weakSplit points leaf_size point_indices axis

/-- C10: for every input with more indices than the leaf size (`leaf_size >= 0`), the
returned root is an internal node on the given axis; its split value is the coordinate on
that axis at position `n / 2` of the input indices sorted ascending by that coordinate; its
left child is built from the `n / 2` indices before that position and its right child from
the `n - n / 2 - 1` indices after it, both on the axis `(axis + 1) % 2`. -/
theorem build_median_policy {K : Type} [Zero K] [LinearOrder K] (points : List (Point K))
    (point_indices : List Nat) (axis leaf_size : Int) (h0 : 0 ≤ leaf_size)
    (h31 : leaf_size < 2 ^ 31) (hn : leaf_size < (point_indices.length : Int)) :
    (sortIndices points axis point_indices).Perm point_indices ∧
    (sortIndices points axis point_indices).Sorted
      (fun i j => coord points axis i ≤ coord points axis j) ∧
    point_indices.length / 2 < (sortIndices points axis point_indices).length ∧
    kdtreeRecursiveBuild points point_indices axis leaf_size =
      Node.mk axis
        (coord points axis
          ((sortIndices points axis point_indices).getD (point_indices.length / 2) 0))
        (kdtreeRecursiveBuild points
          ((sortIndices points axis point_indices).take (point_indices.length / 2))
          ((axis + 1).tmod 2) leaf_size)
        (kdtreeRecursiveBuild points
          ((sortIndices points axis point_indices).drop (point_indices.length / 2 + 1))
          ((axis + 1).tmod 2) leaf_size)
        [] ∧
    ((sortIndices points axis point_indices).take (point_indices.length / 2)).length =
      point_indices.length / 2 ∧
    ((sortIndices points axis point_indices).drop (point_indices.length / 2 + 1)).length =
      point_indices.length - point_indices.length / 2 - 1 ∧
    (kdtreeRecursiveBuild points
      ((sortIndices points axis point_indices).take (point_indices.length / 2))
      ((axis + 1).tmod 2) leaf_size).isNull = false ∧
    (kdtreeRecursiveBuild points
      ((sortIndices points axis point_indices).drop (point_indices.length / 2 + 1))
      ((axis + 1).tmod 2) leaf_size).isNull = false ∧
    (0 ≤ axis → (axis + 1).tmod 2 = (axis + 1) % 2) := by
  have hs : sizeT leaf_size < point_indices.length := by
    unfold sizeT
    omega
  have hlen := sortIndices_length points axis point_indices
  refine ⟨sortIndices_perm points axis point_indices,
    sortIndices_sorted points axis point_indices, by rw [hlen]; omega,
    kdtreeRecursiveBuild_split points point_indices axis leaf_size hs, ?_, ?_,
    kdtreeRecursiveBuild_isNull points _ _ leaf_size,
    kdtreeRecursiveBuild_isNull points _ _ leaf_size, ?_⟩
  · rw [List.length_take, hlen]; omega
  · rw [List.length_drop, hlen]; omega
  · intro ha
    exact Int.tmod_eq_emod (by omega) (by omega)

/-- Instance of C10: the root of the tree of `main`, nine indices with leaf size 1. -/
theorem build_median_policy_witness :
    ((0 : Int) ≤ 1 ∧ (1 : Int) < 2 ^ 31 ∧ (1 : Int) < ((List.range 9).length : Int)) ∧
    kdtreeRecursiveBuild demoPoints (List.range 9) 0 1 =
      Node.mk 0
        (coord demoPoints 0
          ((sortIndices demoPoints 0 (List.range 9)).getD ((List.range 9).length / 2) 0))
        (kdtreeRecursiveBuild demoPoints
          ((sortIndices demoPoints 0 (List.range 9)).take ((List.range 9).length / 2))
          (((0 : Int) + 1).tmod 2) 1)
        (kdtreeRecursiveBuild demoPoints
          ((sortIndices demoPoints 0 (List.range 9)).drop ((List.range 9).length / 2 + 1))
          (((0 : Int) + 1).tmod 2) 1)
        [] :=
  ⟨by decide,
    (build_median_policy demoPoints (List.range 9) 0 1 (by decide) (by decide)
      (by decide)).2.2.2.1⟩

/-- C11: for every leaf size `>= 0` and every index list with at most that many elements,
the empty list included, `kdtreeRecursiveBuild` returns a single leaf without children
whose index list is the input list, same elements in the same order; no recursion step is
taken, so the recursion bound `0` gives the same result. -/
theorem build_leaf_base_case {K : Type} [Zero K] [LinearOrder K] (points : List (Point K))
    (point_indices : List Nat) (axis leaf_size : Int) (h0 : 0 ≤ leaf_size)
    (h31 : leaf_size < 2 ^ 31) (hn : (point_indices.length : Int) ≤ leaf_size) :
    kdtreeRecursiveBuild points point_indices axis leaf_size =
      Node.mk axis 0 Node.null Node.null point_indices ∧
    buildFuel points leaf_size 0 point_indices axis =
      Node.mk axis 0 Node.null Node.null point_indices ∧
    (kdtreeRecursiveBuild points point_indices axis leaf_size).leafLists = [point_indices] ∧
    (kdtreeRecursiveBuild points point_indices axis leaf_size).internalCount = 0 := by
  have hs : point_indices.length ≤ sizeT leaf_size := by
    unfold sizeT
    omega
  have e := kdtreeRecursiveBuild_leaf points point_indices axis leaf_size hs
  refine ⟨e, ?_, ?_, ?_⟩
  · unfold buildFuel
    rw [if_pos hs]
  · rw [e]; rfl
  · rw [e]; rfl

/-- Instance of C11: the indices `2, 0, 1` with leaf size 3. -/
theorem build_leaf_base_case_witness :
    ((0 : Int) ≤ 3 ∧ (3 : Int) < 2 ^ 31 ∧ ((([2, 0, 1] : List Nat).length : Nat) : Int) ≤ 3) ∧
    (kdtreeRecursiveBuild demoPoints [2, 0, 1] 0 3 =
      Node.mk 0 0 Node.null Node.null [2, 0, 1] ∧
    buildFuel demoPoints 3 0 [2, 0, 1] 0 = Node.mk 0 0 Node.null Node.null [2, 0, 1] ∧
    (kdtreeRecursiveBuild demoPoints [2, 0, 1] 0 3).leafLists = [[2, 0, 1]] ∧
    (kdtreeRecursiveBuild demoPoints [2, 0, 1] 0 3).internalCount = 0) :=
  ⟨by decide, build_leaf_base_case demoPoints [2, 0, 1] 0 3 (by decide) (by decide)
    (by decide)⟩

/-- C12: for every point list, index list and leaf size `>= 0`, the tree returned by
`kdtreeRecursiveBuild` is not null and every node of it is either a leaf, without children
and with at most `leaf_size` indices, or an internal node with two non-null children and
an empty index list. -/
theorem build_leaf_capacity_invariant {K : Type} [Zero K] [LinearOrder K]
    (points : List (Point K)) (point_indices : List Nat) (axis leaf_size : Int)
    (h0 : 0 ≤ leaf_size) (h31 : leaf_size < 2 ^ 31) :
    (kdtreeRecursiveBuild points point_indices axis leaf_size).isNull = false ∧
    (kdtreeRecursiveBuild points point_indices axis leaf_size).shaped leaf_size.toNat := by
  have hs : sizeT leaf_size = leaf_size.toNat := by
    unfold sizeT
    omega
  rw [← hs]
  exact ⟨kdtreeRecursiveBuild_isNull points point_indices axis leaf_size,
    build_shaped points leaf_size point_indices axis⟩

/-- Instance of C12: the tree of `main`, with leaf size 1. -/
theorem build_leaf_capacity_invariant_witness :
    ((0 : Int) ≤ 1 ∧ (1 : Int) < 2 ^ 31) ∧
    ((kdtreeRecursiveBuild demoPoints (List.range 9) 0 1).isNull = false ∧
    (kdtreeRecursiveBuild demoPoints (List.range 9) 0 1).shaped (1 : Int).toNat) :=
  ⟨by decide, build_leaf_capacity_invariant demoPoints (List.range 9) 0 1 (by decide)
    (by decide)⟩

/-- C13: for every tree produced by `kdtreeRecursiveBuild`, every query point and every
`k`, every candidate retained after `knnSearch` with a fresh `ResultSet(k)` has an index
stored in a leaf of the tree and the distance `calculateDistance(points[index], query)`;
no index is retained twice; the result has no more entries than there are distinct stored
indices; and an index that is in no leaf, such as a dropped median of a duplicate-free
input, is never returned. -/
theorem query_results_sound {K : Type} [LinearOrderedCommRing K] (points : List (Point K))
    (point_indices : List Nat) (axis leaf_size : Int) (query : Point K) (k : Int) :
    (∀ n ∈ (knnSearch points query (kdtreeRecursiveBuild points point_indices axis leaf_size)
        (ResultSet.fresh k)).result_set,
      n.index ∈ (kdtreeRecursiveBuild points point_indices axis leaf_size).leafIndices ∧
      n.distance = calculateDistance (points.getD n.index default) query) ∧
    ((knnSearch points query (kdtreeRecursiveBuild points point_indices axis leaf_size)
      (ResultSet.fresh k)).result_set.map Neighbor.index).Nodup ∧
    (knnSearch points query (kdtreeRecursiveBuild points point_indices axis leaf_size)
      (ResultSet.fresh k)).result_set.length ≤
        (kdtreeRecursiveBuild points point_indices axis leaf_size).leafIndices.toFinset.card ∧
    (point_indices.Nodup → ∀ dropped : List Nat,
      ((kdtreeRecursiveBuild points point_indices axis leaf_size).leafIndices ++
        dropped).Perm point_indices →
      ∀ i ∈ dropped, ∀ n ∈ (knnSearch points query
        (kdtreeRecursiveBuild points point_indices axis leaf_size)
        (ResultSet.fresh k)).result_set, n.index ≠ i) := by
  obtain ⟨calls, e, m, _⟩ := knnSearch_calls points query (sizeT leaf_size) _
    (build_shaped points leaf_size point_indices axis) (ResultSet.fresh k)
  have hi : ((ResultSet.fresh k : ResultSet (Dist K)).addPoints calls).Inv :=
    (ResultSet.inv_fresh k).addPoints calls
  rw [e]
  have hmem : ∀ n ∈ ((ResultSet.fresh k : ResultSet (Dist K)).addPoints calls).result_set,
      n.index ∈ (kdtreeRecursiveBuild points point_indices axis leaf_size).leafIndices ∧
      n.distance = calculateDistance (points.getD n.index default) query := by
    intro n hn
    rcases ResultSet.mem_addPoints hn with h | ⟨c, hc, rfl⟩
    · cases h
    · exact m c hc
  refine ⟨hmem, hi.index_nodup, ?_, ?_⟩
  · rw [← List.length_map _ Neighbor.index, ← List.toFinset_card_of_nodup hi.index_nodup]
    apply Finset.card_le_card
    intro i hi2
    rw [List.mem_toFinset] at hi2 ⊢
    obtain ⟨n, hn, rfl⟩ := List.mem_map.mp hi2
    exact (hmem n hn).1
  · intro hd dropped hp i hdrop n hn hni
    have hnd := List.nodup_append.mp (hp.nodup_iff.mpr hd)
    exact List.disjoint_left.mp hnd.2.2 (hmem n hn).1 (hni ▸ hdrop)

/-- C14: for every leaf size, `kdtreeRecursiveBuild` over the empty index list returns a
single empty leaf, and for every query point and every `k`, `knnSearch` on that tree and
on a null tree leaves a fresh `ResultSet(k)` as it is: nothing is retained, nothing is
printed and `worstDist()` is positive infinity. -/
theorem empty_input_is_no_error {K : Type} [LinearOrderedCommRing K] (points : List (Point K))
    (axis leaf_size : Int) (query : Point K) (k : Int) :
    kdtreeRecursiveBuild points [] axis leaf_size = Node.mk axis 0 Node.null Node.null [] ∧
    knnSearch points query (kdtreeRecursiveBuild points [] axis leaf_size)
      (ResultSet.fresh k) = ResultSet.fresh k ∧
    knnSearch points query Node.null (ResultSet.fresh k) = ResultSet.fresh k ∧
    (knnSearch points query (kdtreeRecursiveBuild points [] axis leaf_size)
      (ResultSet.fresh k)).result_set = [] ∧
    (knnSearch points query (kdtreeRecursiveBuild points [] axis leaf_size)
      (ResultSet.fresh k)).printResults points = [] ∧
    (knnSearch points query (kdtreeRecursiveBuild points [] axis leaf_size)
      (ResultSet.fresh k)).worstDist = ⊤ := by
  have e : kdtreeRecursiveBuild points [] axis leaf_size =
      Node.mk axis 0 Node.null Node.null [] :=
    kdtreeRecursiveBuild_leaf points [] axis leaf_size (Nat.zero_le _)
  have hn : nearSubtree query axis (0 : K) (Node.null : Node K) Node.null = Node.null := by
    unfold nearSubtree; split <;> rfl
  have hf : farSubtree query axis (0 : K) (Node.null : Node K) Node.null = Node.null := by
    unfold farSubtree; split <;> rfl
  have hsearch : knnSearch points query (kdtreeRecursiveBuild points [] axis leaf_size)
      (ResultSet.fresh k) = ResultSet.fresh k := by
    rw [e, knnSearch_mk, if_neg (by simp), hn, hf]
    simp only [knnSearch_null, ite_self]
  rw [hsearch]
  exact ⟨e, rfl, rfl, rfl, rfl, rfl⟩

/-- C15 fails: no configuration is rejected.  With leaf size 0 the builder recurses over
the nine points of `main` and returns a tree with nine internal nodes; with leaf size `-1`
it returns a single leaf; and the query of `main` set up with `k = 0` and with `k = -1`
computes a result of one and of four candidates. -/
theorem config_errors_are_not_rejected :
    (kdtreeRecursiveBuild demoPoints (List.range 9) 0 0).isNull = false ∧
    (kdtreeRecursiveBuild demoPoints (List.range 9) 0 0).internalCount = 9 ∧
    kdtreeRecursiveBuild demoPoints (List.range 9) 0 (-1) =
      Node.mk 0 0 Node.null Node.null (List.range 9) ∧
    (knnSearch demoPoints ⟨6, 4⟩ demoTree (ResultSet.fresh 0)).result_set =
      [⟨Dist.sqrt 5, 5⟩] ∧
    (knnSearch demoPoints ⟨6, 4⟩ demoTree (ResultSet.fresh (-1))).result_set.length = 4 := by
  decide

/-- C15 as amended: configuration values are not checked.  For every leaf size, also one
`<= 0`, `kdtreeRecursiveBuild` returns a tree, and for every `k`, also one `<= 0`, a fresh
`ResultSet(k)` accepts the first candidate offered to it, so that a query computes a
result. -/
theorem config_values_are_not_checked {K : Type} [Zero K] [LinearOrder K]
    (points : List (Point K)) (point_indices : List Nat) (axis leaf_size : Int) (k : Int)
    (distance : D) (index : Nat) :
    (kdtreeRecursiveBuild points point_indices axis leaf_size).isNull = false ∧
    ((ResultSet.fresh k).addPoint distance index).result_set = [⟨distance, index⟩] := by
  refine ⟨kdtreeRecursiveBuild_isNull points point_indices axis leaf_size, ?_⟩
  unfold ResultSet.addPoint
  simp [ResultSet.fresh, pqEmplace]

/-- C16: at every node of a tree produced by `kdtreeRecursiveBuild`, for every query point,
with the far child chosen as in `knnSearch`, every index stored in a leaf of the far child
has a distance to the query of at least `|query_value - split value|`; hence, for every
accumulator that fails the test `distance_to_plane < worstDist()`, the far child stores no
index strictly nearer than `worstDist()`. -/
theorem far_child_lower_bound {K : Type} [LinearOrderedCommRing K] (points : List (Point K))
    (point_indices : List Nat) (axis leaf_size : Int) (query : Point K) :
    (kdtreeRecursiveBuild points point_indices axis leaf_size).farBound points query ∧
    (kdtreeRecursiveBuild points point_indices axis leaf_size).skipSafe points query := by
  have h := farBound_of_weakSplit points query _
    (build_weakSplit points leaf_size point_indices axis)
  exact ⟨h, skipSafe_of_farBound points query _ h⟩

/-- C17 fails while the accumulator holds fewer than `k + 1` candidates.  After the offer
`(1, 0)` to a fresh `ResultSet(1)`, `addPoint(5, 1)` raises `worstDist()` from 1 to 5.  In
the search of `main`, the accumulator that reaches the left child of the root has
`worstDist() = sqrt 13`; that node splits `y` at 8, the query has `y = 4`, so its near
child is its left child, and the recursion into it raises `worstDist()` to `sqrt 17`. -/
theorem worstDist_can_grow :
    ((ResultSet.fresh 1).addPoints [((1 : Nat), 0)]).worstDist = ((1 : Nat) : WithTop Nat) ∧
    (((ResultSet.fresh 1).addPoints [((1 : Nat), 0)]).addPoint 5 1).worstDist =
      ((5 : Nat) : WithTop Nat) ∧
    ¬ ((((ResultSet.fresh 1).addPoints [((1 : Nat), 0)]).addPoint 5 1).worstDist ≤
      ((ResultSet.fresh 1).addPoints [((1 : Nat), 0)]).worstDist) ∧
    demoTree.leftChild =
      Node.mk 1 8
        (Node.mk 0 4 (Node.mk 1 0 Node.null Node.null [0]) (Node.mk 1 0 Node.null Node.null [])
          [])
        (Node.mk 0 0 Node.null Node.null [7]) [] ∧
    nearSubtree (⟨6, 4⟩ : Point Int) 1 8 demoTree.leftChild.leftChild
      demoTree.leftChild.rightChild = demoTree.leftChild.leftChild ∧
    (knnSearch demoPoints ⟨6, 4⟩ demoTree.rightChild (ResultSet.fresh 3)).worstDist =
      ((Dist.sqrt 13 : Dist Int) : WithTop (Dist Int)) ∧
    (knnSearch demoPoints ⟨6, 4⟩ demoTree.leftChild.leftChild
      (knnSearch demoPoints ⟨6, 4⟩ demoTree.rightChild (ResultSet.fresh 3))).worstDist =
      ((Dist.sqrt 17 : Dist Int) : WithTop (Dist Int)) ∧
    ¬ ((knnSearch demoPoints ⟨6, 4⟩ demoTree.leftChild.leftChild
      (knnSearch demoPoints ⟨6, 4⟩ demoTree.rightChild (ResultSet.fresh 3))).worstDist ≤
      (knnSearch demoPoints ⟨6, 4⟩ demoTree.rightChild (ResultSet.fresh 3)).worstDist) := by
  decide

/-- C17 as amended: for every accumulator reachable from a fresh `ResultSet(k)`, `k >= 0`,
that is empty or already holds `k + 1` candidates, `worstDist()` after `addPoint` is
`<= worstDist()` before it for every candidate, and `worstDist()` after the recursion of
`knnSearch` into any subtree, in particular into the near child of any node, is
`<= worstDist()` before it. -/
theorem worstDist_tightens_when_empty_or_full {K : Type} [LinearOrderedCommRing K] (k : Nat)
    (hk : k < 2 ^ 31) (calls : List (Dist K × Nat))
    (hstate : ((ResultSet.fresh (k : Int)).addPoints calls).result_set = [] ∨
      k < ((ResultSet.fresh (k : Int)).addPoints calls).result_set.length)
    (distance : Dist K) (index : Nat) (points : List (Point K)) (query : Point K)
    (node : Node K) :
    (((ResultSet.fresh (k : Int)).addPoints calls).addPoint distance index).worstDist ≤
      ((ResultSet.fresh (k : Int)).addPoints calls).worstDist ∧
    (knnSearch points query node ((ResultSet.fresh (k : Int)).addPoints calls)).worstDist ≤
      ((ResultSet.fresh (k : Int)).addPoints calls).worstDist := by
  have hi : ((ResultSet.fresh (k : Int) : ResultSet (Dist K)).addPoints calls).Inv :=
    (ResultSet.inv_fresh _).addPoints calls
  obtain ⟨cs, hcs⟩ := knnSearch_eq_addPoints points query node
    ((ResultSet.fresh (k : Int)).addPoints calls)
  rw [hcs]
  rcases hstate with hempty | hfull
  · have htop := (ResultSet.worstDist_eq_top_iff _).mpr hempty
    rw [htop]
    exact ⟨le_top, le_top⟩
  · have hfull2 : sizeT ((ResultSet.fresh (k : Int) : ResultSet (Dist K)).addPoints calls).k <
        ((ResultSet.fresh (k : Int) : ResultSet (Dist K)).addPoints calls).result_set.length := by
      rw [ResultSet.addPoints_k, ResultSet.fresh_k, sizeT_natCast k hk]
      exact hfull
    exact ⟨(ResultSet.addPoint_full hi hfull2 distance index).1,
      ResultSet.addPoints_full hi hfull2 cs⟩

/-- Instance of C17 as amended: a `ResultSet(1)` that holds the two candidates at
`sqrt 1` and `sqrt 4` is offered a candidate at `sqrt 9` and is passed to the search of
`main`. -/
theorem worstDist_tightens_when_empty_or_full_witness :
    ((1 : Nat) < 2 ^ 31 ∧
    (((ResultSet.fresh ((1 : Nat) : Int)).addPoints
        [((Dist.sqrt 1 : Dist Int), 10), (Dist.sqrt 4, 11)]).result_set = [] ∨
      1 < ((ResultSet.fresh ((1 : Nat) : Int)).addPoints
        [((Dist.sqrt 1 : Dist Int), 10), (Dist.sqrt 4, 11)]).result_set.length)) ∧
    ((((ResultSet.fresh ((1 : Nat) : Int)).addPoints
        [((Dist.sqrt 1 : Dist Int), 10), (Dist.sqrt 4, 11)]).addPoint (Dist.sqrt 9)
        12).worstDist ≤
      ((ResultSet.fresh ((1 : Nat) : Int)).addPoints
        [((Dist.sqrt 1 : Dist Int), 10), (Dist.sqrt 4, 11)]).worstDist ∧
    (knnSearch demoPoints ⟨6, 4⟩ demoTree ((ResultSet.fresh ((1 : Nat) : Int)).addPoints
        [((Dist.sqrt 1 : Dist Int), 10), (Dist.sqrt 4, 11)])).worstDist ≤
      ((ResultSet.fresh ((1 : Nat) : Int)).addPoints
        [((Dist.sqrt 1 : Dist Int), 10), (Dist.sqrt 4, 11)]).worstDist) :=
  ⟨by decide, worstDist_tightens_when_empty_or_full 1 (by decide)
    [((Dist.sqrt 1 : Dist Int), 10), (Dist.sqrt 4, 11)] (by decide) (Dist.sqrt 9) 12
    demoPoints ⟨6, 4⟩ demoTree⟩

/-- C18: for every point list, every leaf size `>= 1` and every list of `n >= 1` indices,
the height `h` of the tree returned by `kdtreeRecursiveBuild` satisfies `2 ^ h <= n`; a
subtree built from `m` indices has `inputCount = m`, and at every internal node the numbers
of indices passed to the left and to the right recursive call differ by at most 1; for the
root call they are the lengths of the two slices, `n / 2` and `n - n / 2 - 1`. -/
theorem build_is_balanced {K : Type} [Zero K] [LinearOrder K] (points : List (Point K))
    (point_indices : List Nat) (axis leaf_size : Int) (h1 : 1 ≤ leaf_size)
    (h31 : leaf_size < 2 ^ 31) (hn : 1 ≤ point_indices.length) :
    2 ^ (kdtreeRecursiveBuild points point_indices axis leaf_size).height ≤
      point_indices.length ∧
    (kdtreeRecursiveBuild points point_indices axis leaf_size).inputCount =
      point_indices.length ∧
    (kdtreeRecursiveBuild points point_indices axis leaf_size).balanced ∧
    ((sortIndices points axis point_indices).take (point_indices.length / 2)).length ≤
      ((sortIndices points axis point_indices).drop (point_indices.length / 2 + 1)).length
        + 1 ∧
    ((sortIndices points axis point_indices).drop (point_indices.length / 2 + 1)).length ≤
      ((sortIndices points axis point_indices).take (point_indices.length / 2)).length := by
  have hs : 1 ≤ sizeT leaf_size := by
    unfold sizeT
    omega
  have hh := build_height points leaf_size hs point_indices axis
  rw [max_eq_left hn] at hh
  have hlen := sortIndices_length points axis point_indices
  refine ⟨hh, build_inputCount points leaf_size point_indices axis,
    build_balanced points leaf_size point_indices axis, ?_, ?_⟩
  · rw [List.length_take, List.length_drop, hlen]; omega
  · rw [List.length_take, List.length_drop, hlen]; omega

/-- Instance of C18: the tree of `main`, nine indices with leaf size 1. -/
theorem build_is_balanced_witness :
    ((1 : Int) ≤ 1 ∧ (1 : Int) < 2 ^ 31 ∧ 1 ≤ (List.range 9).length) ∧
    (2 ^ (kdtreeRecursiveBuild demoPoints (List.range 9) 0 1).height ≤ (List.range 9).length ∧
    (kdtreeRecursiveBuild demoPoints (List.range 9) 0 1).balanced) :=
  ⟨by decide,
    (build_is_balanced demoPoints (List.range 9) 0 1 (by decide) (by decide) (by decide)).1,
    (build_is_balanced demoPoints (List.range 9) 0 1 (by decide) (by decide)
      (by decide)).2.2.1⟩

/-- C19: `kdtreeRecursiveBuild` terminates for every index list and every leaf size: a
recursion bound of at least the length of the list gives the result, which is a tree
without a missing child; whenever the builder recurses, both recursive calls receive a
strictly shorter index list.  `knnSearch` terminates on the tree for every query and every
accumulator, after at most one `addPoint` call per stored index. -/
theorem build_and_search_terminate {K : Type} [LinearOrderedCommRing K]
    (points : List (Point K)) (point_indices : List Nat) (axis leaf_size : Int)
    (query : Point K) (rs : ResultSet (Dist K)) (fuel : Nat)
    (hfuel : point_indices.length ≤ fuel) :
    buildFuel points leaf_size fuel point_indices axis =
      kdtreeRecursiveBuild points point_indices axis leaf_size ∧
    (kdtreeRecursiveBuild points point_indices axis leaf_size).isNull = false ∧
    (kdtreeRecursiveBuild points point_indices axis leaf_size).shaped (sizeT leaf_size) ∧
    (sizeT leaf_size < point_indices.length →
      ((sortIndices points axis point_indices).take (point_indices.length / 2)).length <
        point_indices.length ∧
      ((sortIndices points axis point_indices).drop (point_indices.length / 2 + 1)).length <
        point_indices.length) ∧
    ∃ calls : List (Dist K × Nat),
      knnSearch points query (kdtreeRecursiveBuild points point_indices axis leaf_size) rs =
        rs.addPoints calls ∧
      calls.length ≤
        (kdtreeRecursiveBuild points point_indices axis leaf_size).leafIndices.length := by
  have hlen := sortIndices_length points axis point_indices
  obtain ⟨calls, e, _, hl⟩ := knnSearch_calls points query (sizeT leaf_size) _
    (build_shaped points leaf_size point_indices axis) rs
  refine ⟨buildFuel_eq points leaf_size fuel point_indices.length point_indices axis hfuel
      (le_refl _),
    kdtreeRecursiveBuild_isNull points point_indices axis leaf_size,
    build_shaped points leaf_size point_indices axis, ?_, calls, e, hl⟩
  intro h
  constructor
  · rw [List.length_take, hlen]; omega
  · rw [List.length_drop, hlen]; omega

/-- Instance of C19: the nine indices of `main` with leaf size 0 and recursion bound 9. -/
theorem build_and_search_terminate_witness :
    (List.range 9).length ≤ 9 ∧
    (buildFuel demoPoints 0 9 (List.range 9) 0 =
      kdtreeRecursiveBuild demoPoints (List.range 9) 0 0 ∧
    (kdtreeRecursiveBuild demoPoints (List.range 9) 0 0).isNull = false) :=
  ⟨by decide,
    (build_and_search_terminate demoPoints (List.range 9) 0 0 ⟨6, 4⟩ (ResultSet.fresh 3) 9
      (by decide)).1,
    (build_and_search_terminate demoPoints (List.range 9) 0 0 ⟨6, 4⟩ (ResultSet.fresh 3) 9
      (by decide)).2.1⟩

/-- C20: for every tree produced by `kdtreeRecursiveBuild` that stores at least one index
in a leaf, every query point and every `k`, after `knnSearch` with a fresh `ResultSet(k)`
a candidate is retained, and the smallest retained distance is the minimum distance from
the query to a leaf-stored point: the nearest retained candidate is a stored index with
its distance to the query, and no stored index is nearer. -/
theorem nearest_stored_point_is_found {K : Type} [LinearOrderedCommRing K]
    (points : List (Point K)) (point_indices : List Nat) (axis leaf_size : Int)
    (query : Point K) (k : Int)
    (hstored : (kdtreeRecursiveBuild points point_indices axis leaf_size).leafIndices ≠ []) :
    ∃ n ∈ (knnSearch points query (kdtreeRecursiveBuild points point_indices axis leaf_size)
        (ResultSet.fresh k)).result_set,
      (∀ m ∈ (knnSearch points query
          (kdtreeRecursiveBuild points point_indices axis leaf_size)
          (ResultSet.fresh k)).result_set, n.distance ≤ m.distance) ∧
      n.index ∈ (kdtreeRecursiveBuild points point_indices axis leaf_size).leafIndices ∧
      n.distance = calculateDistance (points.getD n.index default) query ∧
      ∀ i ∈ (kdtreeRecursiveBuild points point_indices axis leaf_size).leafIndices,
        n.distance ≤ calculateDistance (points.getD i default) query := by
  have hshape := build_shaped points leaf_size point_indices axis
  have hbound := farBound_of_weakSplit points query _
    (build_weakSplit points leaf_size point_indices axis)
  have hcov := knnSearch_covers points query (sizeT leaf_size) _ hshape hbound
    (ResultSet.fresh k) (ResultSet.near_fresh _ k)
  obtain ⟨calls, e, m, _⟩ := knnSearch_calls points query (sizeT leaf_size) _ hshape
    (ResultSet.fresh k)
  obtain ⟨i0, hi0⟩ := List.exists_mem_of_ne_nil _ hstored
  obtain ⟨n0, hn0, _⟩ := hcov i0 hi0
  obtain ⟨n, hn, hmin⟩ := exists_nearest (List.ne_nil_of_mem hn0)
  refine ⟨n, hn, hmin, ?_, ?_, ?_⟩
  · rw [e] at hn
    rcases ResultSet.mem_addPoints hn with h | ⟨c, hc, rfl⟩
    · cases h
    · exact (m c hc).1
  · rw [e] at hn
    rcases ResultSet.mem_addPoints hn with h | ⟨c, hc, rfl⟩
    · cases h
    · exact (m c hc).2
  · intro i hi
    obtain ⟨n1, hn1, hle⟩ := hcov i hi
    exact le_trans (hmin n1 hn1) hle

/-- Instance of C20: the search of `main`; the tree stores the indices `0, 7, 5, 2`. -/
theorem nearest_stored_point_is_found_witness :
    (kdtreeRecursiveBuild demoPoints (List.range 9) 0 1).leafIndices ≠ [] ∧
    ∃ n ∈ (knnSearch demoPoints ⟨6, 4⟩ (kdtreeRecursiveBuild demoPoints (List.range 9) 0 1)
        (ResultSet.fresh 3)).result_set,
      (∀ m ∈ (knnSearch demoPoints ⟨6, 4⟩
          (kdtreeRecursiveBuild demoPoints (List.range 9) 0 1)
          (ResultSet.fresh 3)).result_set, n.distance ≤ m.distance) ∧
      n.index ∈ (kdtreeRecursiveBuild demoPoints (List.range 9) 0 1).leafIndices ∧
      n.distance = calculateDistance (demoPoints.getD n.index default) ⟨6, 4⟩ ∧
      ∀ i ∈ (kdtreeRecursiveBuild demoPoints (List.range 9) 0 1).leafIndices,
        n.distance ≤ calculateDistance (demoPoints.getD i default) ⟨6, 4⟩ :=
  ⟨by decide,
    nearest_stored_point_is_found demoPoints (List.range 9) 0 1 ⟨6, 4⟩ 3 (by decide)⟩

end Claims

end KdTree
